import Mathlib

/-!
Verification of the embar query-construction library: a shallow embedding of
the schema model, WHERE/JOIN clause algebra, SELECT/INSERT/UPDATE builders,
the table dependency sorter, and the sqlite row mapper, together with
theorems about bind-parameter naming, builder semantics, rendering, and the
dependency sort.
-/

namespace Embar

/-! Decimal rendering of the bind counter, modelling Python `str(count)`. -/

/-- Character for a single decimal digit, as produced by Python `str`. -/
def digitChar : Nat → Char
  | 0 => '0'
  | 1 => '1'
  | 2 => '2'
  | 3 => '3'
  | 4 => '4'
  | 5 => '5'
  | 6 => '6'
  | 7 => '7'
  | 8 => '8'
  | 9 => '9'
  | _ => '*'

/-- Fuel-driven decimal digit expansion (most significant digit first). -/
def natCharsCore : Nat → Nat → List Char → List Char
  | 0, _, acc => acc
  | fuel + 1, n, acc =>
    if n < 10 then digitChar n :: acc
    else natCharsCore fuel (n / 10) (digitChar (n % 10) :: acc)

/-- Decimal digits of `n`, most significant first. -/
def natChars (n : Nat) : List Char := natCharsCore (n + 1) n []

/-- Model of Python `str(n)` for a nonnegative integer counter. -/
def natStr (n : Nat) : String := String.mk (natChars n)

/-- Left inverse of `natChars`, used to prove injectivity of decimal printing. -/
def decodeDigits (l : List Char) : Nat :=
  l.foldl (fun a c => 10 * a + (c.toNat - 48)) 0

/-! Schema model: column and table metadata (`embar/column/base.py`,
`embar/table.py`). Table names are resolved by the time queries render, so a
column is its table name plus its own name. -/

/-- Column metadata: resolved table name and DB column name
(`ColumnInfo` in `embar/column/base.py`). -/
structure ColumnInfo where
  tableName : String
  name : String
deriving DecidableEq, Repr

/-- Fully qualified name, `"table"."column"` (`ColumnInfo.fqn`). -/
def ColumnInfo.fqn (c : ColumnInfo) : String :=
  "\"" ++ c.tableName ++ "\".\"" ++ c.name ++ "\""

/-- Table metadata: resolved table name plus the ordered field-name to
column-name mapping (`Table.column_names` in `embar/table.py`). -/
structure TableInfo where
  name : String
  columns : List (String × String)
deriving Repr

/-- Fully qualified (quoted) table name (`TableBase.fqn`). -/
def TableInfo.fqn (t : TableInfo) : String := "\"" ++ t.name ++ "\""

/-- Python values that can be bound as SQL parameters (`PyType`). -/
inductive PyValue where
  | int (n : Int)
  | str (s : String)
  | bool (b : Bool)
  | list (vs : List PyValue)

/-- Right operand of a comparison clause: another column or a literal value
(the `PyType | ColumnInfo` union in `embar/query/where.py`). -/
inductive Operand where
  | col (c : ColumnInfo)
  | val (v : PyValue)

/-- Rendered SQL fragment plus named bind parameters (`WhereData` in
`embar/query/where.py`); the Python params dict is an association list. -/
structure WhereData where
  sql : String
  params : List (String × PyValue)

/-- Python dict merge of two association lists: keys of `a` updated with
values from `b`, then keys of `b` not present in `a` appended. -/
def dictMerge (a b : List (String × PyValue)) : List (String × PyValue) :=
  a.map (fun p =>
    match b.find? (fun q => q.1 == p.1) with
    | some q => (p.1, q.2)
    | none => p)
  ++ b.filter (fun q => !a.any (fun p => p.1 == q.1))

/-- WHERE-clause expression tree (`embar/query/where.py`), one constructor
per clause class. -/
inductive WhereClause where
  | eq (left : ColumnInfo) (right : Operand)
  | ne (left : ColumnInfo) (right : Operand)
  | gt (left : ColumnInfo) (right : Operand)
  | gte (left : ColumnInfo) (right : Operand)
  | lt (left : ColumnInfo) (right : Operand)
  | lte (left : ColumnInfo) (right : Operand)
  | like (left : ColumnInfo) (right : Operand)
  | ilike (left : ColumnInfo) (right : Operand)
  | notLike (left : ColumnInfo) (right : Operand)
  | isNull (column : ColumnInfo)
  | isNotNull (column : ColumnInfo)
  | inArray (column : ColumnInfo) (values : List PyValue)
  | notInArray (column : ColumnInfo) (values : List PyValue)
  | between (column : ColumnInfo) (lower upper : PyValue)
  | notBetween (column : ColumnInfo) (lower upper : PyValue)
  | not (clause : WhereClause)
  | and (left right : WhereClause)
  | or (left right : WhereClause)

/-- Render a clause, threading the shared bind counter (`get_count` state):
the argument is the value the next `get_count()` call returns, the second
component of the result is the counter after rendering.  Each branch
transcribes the corresponding `get` method in `embar/query/where.py`; note
that every comparison clause calls `get_count()` before checking whether its
right operand is a column. -/
def WhereClause.get : WhereClause → Nat → WhereData × Nat
  | .eq left right, count =>
    let name := "eq_" ++ left.name ++ "_" ++ natStr count
    match right with
    | .col r => (⟨left.fqn ++ " = " ++ r.fqn, []⟩, count + 1)
    | .val v => (⟨left.fqn ++ " = %(" ++ name ++ ")s", [(name, v)]⟩, count + 1)
  | .ne left right, count =>
    let name := "ne_" ++ left.name ++ "_" ++ natStr count
    match right with
    | .col r => (⟨left.fqn ++ " != " ++ r.fqn, []⟩, count + 1)
    | .val v => (⟨left.fqn ++ " != %(" ++ name ++ ")s", [(name, v)]⟩, count + 1)
  | .gt left right, count =>
    let name := "gt_" ++ left.name ++ "_" ++ natStr count
    match right with
    | .col r => (⟨left.fqn ++ " > " ++ r.fqn, []⟩, count + 1)
    | .val v => (⟨left.fqn ++ " > %(" ++ name ++ ")s", [(name, v)]⟩, count + 1)
  | .gte left right, count =>
    let name := "gte_" ++ left.name ++ "_" ++ natStr count
    match right with
    | .col r => (⟨left.fqn ++ " >= " ++ r.fqn, []⟩, count + 1)
    | .val v => (⟨left.fqn ++ " >= %(" ++ name ++ ")s", [(name, v)]⟩, count + 1)
  | .lt left right, count =>
    let name := "lt_" ++ left.name ++ "_" ++ natStr count
    match right with
    | .col r => (⟨left.fqn ++ " < " ++ r.fqn, []⟩, count + 1)
    | .val v => (⟨left.fqn ++ " < %(" ++ name ++ ")s", [(name, v)]⟩, count + 1)
  | .lte left right, count =>
    let name := "lte_" ++ left.name ++ "_" ++ natStr count
    match right with
    | .col r => (⟨left.fqn ++ " <= " ++ r.fqn, []⟩, count + 1)
    | .val v => (⟨left.fqn ++ " <= %(" ++ name ++ ")s", [(name, v)]⟩, count + 1)
  | .like left right, count =>
    let name := "like_" ++ left.name ++ "_" ++ natStr count
    match right with
    | .col r => (⟨left.fqn ++ " = " ++ r.fqn, []⟩, count + 1)
    | .val v => (⟨left.fqn ++ " LIKE %(" ++ name ++ ")s", [(name, v)]⟩, count + 1)
  | .ilike left right, count =>
    let name := "ilike_" ++ left.name ++ "_" ++ natStr count
    match right with
    | .col r => (⟨left.fqn ++ " ILIKE " ++ r.fqn, []⟩, count + 1)
    | .val v => (⟨left.fqn ++ " ILIKE %(" ++ name ++ ")s", [(name, v)]⟩, count + 1)
  | .notLike left right, count =>
    let name := "notlike_" ++ left.name ++ "_" ++ natStr count
    match right with
    | .col r => (⟨left.fqn ++ " NOT LIKE " ++ r.fqn, []⟩, count + 1)
    | .val v => (⟨left.fqn ++ " NOT LIKE %(" ++ name ++ ")s", [(name, v)]⟩, count + 1)
  | .isNull column, count => (⟨column.fqn ++ " IS NULL", []⟩, count)
  | .isNotNull column, count => (⟨column.fqn ++ " IS NOT NULL", []⟩, count)
  | .inArray column values, count =>
    let name := "in_" ++ column.name ++ "_" ++ natStr count
    (⟨column.fqn ++ " = ANY(%(" ++ name ++ ")s)", [(name, .list values)]⟩, count + 1)
  | .notInArray column values, count =>
    let name := "notin_" ++ column.name ++ "_" ++ natStr count
    (⟨column.fqn ++ " != ALL(%(" ++ name ++ ")s)", [(name, .list values)]⟩, count + 1)
  | .between column lower upper, count =>
    let lowerName := "between_lower_" ++ column.name ++ "_" ++ natStr count
    let upperName := "between_upper_" ++ column.name ++ "_" ++ natStr count
    (⟨column.fqn ++ " BETWEEN %(" ++ lowerName ++ ")s AND %(" ++ upperName ++ ")s",
      [(lowerName, lower), (upperName, upper)]⟩, count + 1)
  | .notBetween column lower upper, count =>
    let lowerName := "notbetween_lower_" ++ column.name ++ "_" ++ natStr count
    let upperName := "notbetween_upper_" ++ column.name ++ "_" ++ natStr count
    (⟨column.fqn ++ " NOT BETWEEN %(" ++ lowerName ++ ")s AND %(" ++ upperName ++ ")s",
      [(lowerName, lower), (upperName, upper)]⟩, count + 1)
  | .not clause, count =>
    let (inner, n) := clause.get count
    (⟨"NOT (" ++ inner.sql ++ ")", inner.params⟩, n)
  | .and left right, count =>
    let (l, n1) := left.get count
    let (r, n2) := right.get n1
    (⟨l.sql ++ " AND " ++ r.sql, dictMerge l.params r.params⟩, n2)
  | .or left right, count =>
    let (l, n1) := left.get count
    let (r, n2) := right.get n1
    (⟨l.sql ++ " OR " ++ r.sql, dictMerge l.params r.params⟩, n2)

/-- Join clauses (`embar/query/join.py`), one constructor per class. -/
inductive JoinClause where
  | leftJoin (table : TableInfo) (onClause : WhereClause)
  | rightJoin (table : TableInfo) (onClause : WhereClause)
  | innerJoin (table : TableInfo) (onClause : WhereClause)
  | fullJoin (table : TableInfo) (onClause : WhereClause)
  | crossJoin (table : TableInfo)

/-- Render a join; the ON clause is rendered with the shared counter, a
cross join has no condition and no parameters (`JoinClause.get`). -/
def JoinClause.get : JoinClause → Nat → WhereData × Nat
  | .leftJoin table onClause, count =>
    let (onData, n) := onClause.get count
    (⟨"LEFT JOIN " ++ table.fqn ++ " ON " ++ onData.sql, onData.params⟩, n)
  | .rightJoin table onClause, count =>
    let (onData, n) := onClause.get count
    (⟨"RIGHT JOIN " ++ table.fqn ++ " ON " ++ onData.sql, onData.params⟩, n)
  | .innerJoin table onClause, count =>
    let (onData, n) := onClause.get count
    (⟨"INNER JOIN " ++ table.fqn ++ " ON " ++ onData.sql, onData.params⟩, n)
  | .fullJoin table onClause, count =>
    let (onData, n) := onClause.get count
    (⟨"FULL OUTER JOIN " ++ table.fqn ++ " ON " ++ onData.sql, onData.params⟩, n)
  | .crossJoin table, count => (⟨"CROSS JOIN " ++ table.fqn, []⟩, count)

/-! Selection model (`embar/query/selection.py`): the declared output shape
of a select query and its dialect-specific projection rendering. -/

/-- Target dialect (`DbType` in `embar/db/base.py`). -/
inductive DbType where
  | postgres
  | sqlite
deriving DecidableEq, Repr

/-- Comma-joined `'field', "table"."column"` pairs over every column of the
referenced table (the `column_pairs` expression in `_get_source_expr`). -/
def columnPairs (t : TableInfo) : String :=
  String.intercalate ", "
    (t.columns.map (fun fc => "'" ++ fc.1 ++ "', " ++ t.fqn ++ ".\"" ++ fc.2 ++ "\""))

/-- Source of one selection field, one constructor per recognized
annotation kind in `_get_source_expr`. -/
inductive SelectionField where
  | columnRef (c : ColumnInfo)
  | manyColumn (c : ColumnInfo)
  | oneTable (t : TableInfo)
  | manyTable (t : TableInfo)
  | rawSql (s : String)

/-- Render the source expression of a selection field for the given dialect
(`_get_source_expr` in `embar/query/selection.py`). -/
def sourceExpr (dbType : DbType) : SelectionField → String
  | .columnRef c => c.fqn
  | .manyColumn c =>
    match dbType with
    | .postgres => "array_agg(" ++ c.fqn ++ ")"
    | .sqlite => "json_group_array(" ++ c.fqn ++ ")"
  | .oneTable t =>
    match dbType with
    | .postgres => "json_build_object(" ++ columnPairs t ++ ")"
    | .sqlite => "json_object(" ++ columnPairs t ++ ")"
  | .manyTable t =>
    match dbType with
    | .postgres => "json_agg(json_build_object(" ++ columnPairs t ++ "))"
    | .sqlite => "json_group_array(json_object(" ++ columnPairs t ++ "))"
  | .rawSql s => s

/-- A selection: ordered named output fields (`Selection` dataclass). -/
structure Selection where
  fields : List (String × SelectionField)

/-- Render the projection list, `<source> AS "<field>"` per field
(`Selection.to_sql_columns`). -/
def Selection.toSqlColumns (sel : Selection) (dbType : DbType) : String :=
  String.intercalate ", "
    (sel.fields.map (fun f => sourceExpr dbType f.2 ++ " AS \"" ++ f.1 ++ "\""))

/-! ORDER BY clauses.  The files `embar/query/order_by.py`, `group_by.py`
and `having.py` are not in the source tree; only their use sites in
`embar/query/select.py` are.  The clause kinds and their rendering are
modelled from the spec (bare column is implicit ascending, Asc/Desc may
carry NULLS FIRST/LAST, raw SQL passes through); `GroupBy` and `Having` are
plain wrappers around their arguments at the use sites and are inlined. -/

/-- Modelled from the spec: one ORDER BY clause, `embar/query/order_by.py`
being absent from the source tree (bare columns, Asc/Desc wrappers with
optional NULLS FIRST/LAST, raw SQL order expressions). -/
inductive OrderByClause where
  | bareColumn (c : ColumnInfo)
  | asc (c : ColumnInfo) (nullsLast : Option Bool)
  | desc (c : ColumnInfo) (nullsLast : Option Bool)
  | rawSqlOrder (s : String)

/-- Modelled from the spec: render one ORDER BY clause. -/
def OrderByClause.fragment : OrderByClause → String
  | .bareColumn c => c.fqn
  | .asc c nullsLast =>
    c.fqn ++ " ASC" ++
      (match nullsLast with
       | some true => " NULLS LAST"
       | some false => " NULLS FIRST"
       | none => "")
  | .desc c nullsLast =>
    c.fqn ++ " DESC" ++
      (match nullsLast with
       | some true => " NULLS LAST"
       | some false => " NULLS FIRST"
       | none => "")
  | .rawSqlOrder s => s

/-- Modelled from the spec: comma-join the ORDER BY clauses in order. -/
def orderBySql (clauses : List OrderByClause) : String :=
  String.intercalate ", " (clauses.map OrderByClause.fragment)

/-- Final rendered query: SQL text, named parameters, and the per-row
parameter maps of a batched insert (`Query` in `embar/query/query.py`). -/
structure Query where
  sql : String
  params : List (String × PyValue)
  manyParams : List (List (String × PyValue))

/-! Select builder (`SelectQueryReady` in `embar/query/select.py`). -/

/-- Builder state of a select query: the fields of `SelectQueryReady`, with
the database collaborator reduced to its dialect. -/
structure SelectQueryReady where
  sel : Selection
  table : TableInfo
  db : DbType
  distinct : Bool
  joins : List JoinClause
  whereClause : Option WhereClause
  groupClause : Option (List ColumnInfo)
  havingClause : Option WhereClause
  orderClause : Option (List OrderByClause)
  limitValue : Option Nat
  offsetValue : Option Nat

/-- Append a LEFT JOIN (`left_join`). -/
def SelectQueryReady.leftJoin (q : SelectQueryReady) (table : TableInfo)
    (onClause : WhereClause) : SelectQueryReady :=
  { q with joins := q.joins ++ [JoinClause.leftJoin table onClause] }

/-- Set the WHERE clause (`where`); the field is overwritten. -/
def SelectQueryReady.where' (q : SelectQueryReady) (w : WhereClause) : SelectQueryReady :=
  { q with whereClause := some w }

/-- Set the GROUP BY columns (`group_by`); the field is overwritten. -/
def SelectQueryReady.groupBy (q : SelectQueryReady) (cols : List ColumnInfo) : SelectQueryReady :=
  { q with groupClause := some cols }

/-- Set the HAVING clause (`having`); the field is overwritten. -/
def SelectQueryReady.having (q : SelectQueryReady) (w : WhereClause) : SelectQueryReady :=
  { q with havingClause := some w }

/-- Add ORDER BY clauses (`order_by`): a first call sets the list, later
calls append to the existing one. -/
def SelectQueryReady.orderBy (q : SelectQueryReady) (clauses : List OrderByClause) :
    SelectQueryReady :=
  match q.orderClause with
  | none => { q with orderClause := some clauses }
  | some old => { q with orderClause := some (old ++ clauses) }

/-- Set LIMIT (`limit`). -/
def SelectQueryReady.limit (q : SelectQueryReady) (n : Nat) : SelectQueryReady :=
  { q with limitValue := some n }

/-- Set OFFSET (`offset`). -/
def SelectQueryReady.offset (q : SelectQueryReady) (n : Nat) : SelectQueryReady :=
  { q with offsetValue := some n }

/-- The join loop of `SelectQueryReady.sql`: renders each join in append
order, threading the shared counter and merging parameter maps. -/
def joinLoop : List JoinClause → String → List (String × PyValue) → Nat →
    String × List (String × PyValue) × Nat
  | [], sql, params, count => (sql, params, count)
  | j :: js, sql, params, count =>
    let (joinData, n) := j.get count
    joinLoop js (sql ++ "\n" ++ joinData.sql) (dictMerge params joinData.params) n

/-- The WHERE step of `SelectQueryReady.sql`: renders the optional clause
with the current counter and appends its SQL and parameters. -/
def whereStep (wc : Option WhereClause) :
    String × List (String × PyValue) × Nat → String × List (String × PyValue) × Nat
  | (sql, params, count) =>
    match wc with
    | none => (sql, params, count)
    | some w =>
      let (whereData, n) := w.get count
      (sql ++ "\nWHERE " ++ whereData.sql, dictMerge params whereData.params, n)

/-- The GROUP BY step of `SelectQueryReady.sql`: SQL only, no parameters. -/
def groupStep (gc : Option (List ColumnInfo)) :
    String × List (String × PyValue) × Nat → String × List (String × PyValue) × Nat
  | (sql, params, count) =>
    match gc with
    | none => (sql, params, count)
    | some cols =>
      (sql ++ "\nGROUP BY " ++ String.intercalate ", " (cols.map ColumnInfo.fqn), params, count)

/-- The HAVING step of `SelectQueryReady.sql`: renders the optional clause
with the counter left by the WHERE step. -/
def havingStep (hc : Option WhereClause) :
    String × List (String × PyValue) × Nat → String × List (String × PyValue) × Nat
  | (sql, params, count) =>
    match hc with
    | none => (sql, params, count)
    | some h =>
      let (havingData, n) := h.get count
      (sql ++ "\nHAVING " ++ havingData.sql, dictMerge params havingData.params, n)

/-- The initial SELECT/FROM line of `SelectQueryReady.sql` after dedent and
strip (a double space appears when DISTINCT is absent). -/
def selectBase (q : SelectQueryReady) : String :=
  "SELECT " ++ (if q.distinct then "DISTINCT" else "") ++ " " ++
    q.sel.toSqlColumns q.db ++ "\nFROM " ++ q.table.fqn

/-- Joins, WHERE, GROUP BY and HAVING of the render pass, in source order,
over one shared counter starting at zero. -/
def selectBody (q : SelectQueryReady) : String × List (String × PyValue) × Nat :=
  havingStep q.havingClause
    (groupStep q.groupClause
      (whereStep q.whereClause
        (joinLoop q.joins (selectBase q) [] 0)))

/-- Combine all components of the query (`SelectQueryReady.sql`): after the
parameter-bearing clauses come ORDER BY, LIMIT and OFFSET, which bind
nothing. -/
def SelectQueryReady.sql (q : SelectQueryReady) : Query :=
  let (bodySql, params, _) := selectBody q
  let sql1 :=
    match q.orderClause with
    | none => bodySql
    | some clauses => bodySql ++ "\nORDER BY " ++ orderBySql clauses
  let sql2 :=
    match q.limitValue with
    | none => sql1
    | some n => sql1 ++ "\nLIMIT " ++ natStr n
  let sql3 :=
    match q.offsetValue with
    | none => sql2
    | some n => sql2 ++ "\nOFFSET " ++ natStr n
  ⟨sql3, params, []⟩

/-! Insert builder (`InsertQueryReady` in `embar/query/insert.py`). -/

/-- Insert builder state: the target table and the `value_dict()` of each
item passed to `values()` (column-name keyed rows). -/
structure InsertQueryReady where
  table : TableInfo
  items : List (List (String × PyValue))

/-- Render the INSERT statement (`InsertQueryReady.sql`): quoted column
list, one named placeholder per column, and one parameter map per item.
There is no emptiness check on `items`. -/
def InsertQueryReady.sql (q : InsertQueryReady) : Query :=
  let columnNames := q.table.columns.map Prod.snd
  let columns := String.intercalate ", " (columnNames.map (fun c => "\"" ++ c ++ "\""))
  let placeholderStr := String.intercalate ", " (columnNames.map (fun c => "%(" ++ c ++ ")s"))
  ⟨"INSERT INTO " ++ q.table.fqn ++ " (" ++ columns ++ ") VALUES (" ++ placeholderStr ++ ")",
    [], q.items⟩

/-! Update builder (`UpdateQuery` in `embar/query/update.py`). -/

/-- Render failure of a builder in an invalid state. -/
inductive RenderError where
  | builderStateError
deriving DecidableEq, Repr

/-- The SET loop of `UpdateQuery._build_sql`: one uniquely indexed bind name
`set_<field>_<i>` per entry of the data mapping, threading the same counter
that the WHERE clause continues from. -/
def setterLoop : List (String × PyValue) → TableInfo → Nat →
    List String × List (String × PyValue) × Nat
  | [], _, count => ([], [], count)
  | (fieldName, value) :: rest, table, count =>
    let col := ((table.columns.find? (fun fc => fc.1 == fieldName)).map Prod.snd).getD fieldName
    let name := "set_" ++ fieldName ++ "_" ++ natStr count
    let setter := "\"" ++ col ++ "\" = %(" ++ name ++ ")s"
    let (setters, params, n) := setterLoop rest table (count + 1)
    (setter :: setters, (name, value) :: params, n)

/-- Render the UPDATE statement (`UpdateQuery._build_sql`).  Modelled from
the spec for the no-data case: `embar.custom_types.Undefined`, the sentinel
`data` holds before `set()` is called, is not in the source tree; per the
spec, rendering an UPDATE with no SET data is a `BuilderStateError`. -/
def updateBuildSql (table : TableInfo) (data : Option (List (String × PyValue)))
    (whereClause : Option WhereClause) :
    Except RenderError (String × List (String × PyValue)) :=
  match data with
  | none => .error .builderStateError
  | some d =>
    let (setters, params, count) := setterLoop d table 0
    let setStmt := String.intercalate ", " setters
    let sql := "UPDATE " ++ table.fqn ++ " SET " ++ setStmt
    match whereClause with
    | none => .ok (sql, params)
    | some w =>
      let (whereData, _) := w.get count
      .ok (sql ++ " WHERE " ++ whereData.sql ++ " ", dictMerge params whereData.params)

/-! Dependency sorter (`topological_sort_tables` in `embar/_util.py`).
A table is its resolved name plus, per foreign-key column in declaration
order, the name of the referenced table. -/

/-- One table as the sorter sees it: the table name and the referenced
table name of each of its foreign-key columns. -/
structure TableSpec where
  name : String
  refs : List String
deriving DecidableEq, Repr

/-- Index of the table a name resolves to (the `name_to_table` dict keyed by
`get_name()`: with duplicate names the last table wins). -/
def nameToIdx (tables : List TableSpec) (s : String) : Option Nat :=
  ((List.range tables.length).filter
    (fun i => decide (((tables.get? i).map TableSpec.name) = some s))).getLast?

/-- Indices of the tables referenced by table `i`, with multiplicity, in
column order; unresolvable references are skipped. -/
def resolvedRefs (tables : List TableSpec) (i : Nat) : List Nat :=
  (((tables.get? i).map TableSpec.refs).getD []).filterMap (nameToIdx tables)

/-- Initial in-degree of table `i`: one per resolvable foreign-key column,
duplicates and self-references included (`in_degree[table] += 1`). -/
def inDegInit (tables : List TableSpec) (i : Nat) : Int :=
  ((resolvedRefs tables i).length : Int)

/-- Dependents of table `j` (`dependencies[ref_table].add(table)`): the
distinct tables with a column referencing `j`.  The Python set is modelled
as the duplicate-free list in ascending index order. -/
def depsOf (tables : List TableSpec) (j : Nat) : List Nat :=
  (List.range tables.length).filter (fun i => (resolvedRefs tables i).contains j)

/-- In-degree lookup (`in_degree[x]`), zero for an absent index. -/
def intGet (m : List Int) (x : Nat) : Int := (m.get? x).getD 0

/-- Body of the dependents loop in Kahn's algorithm: decrement each
dependent's in-degree and enqueue those that reach exactly zero. -/
def processDeps : List Nat → List Int → List Nat → List Int × List Nat
  | [], inDeg, queue => (inDeg, queue)
  | d :: rest, inDeg, queue =>
    let v := intGet inDeg d - 1
    let inDeg2 := inDeg.set d v
    let queue2 := if v = 0 then queue ++ [d] else queue
    processDeps rest inDeg2 queue2

/-- Termination measure of the Kahn loop: queue length plus the positive
part of every in-degree; each iteration strictly decreases it, so it also
serves as sufficient fuel. -/
def kahnMeasure (inDeg : List Int) (queue : List Nat) : Nat :=
  queue.length + (inDeg.map Int.toNat).sum

/-- The Kahn while-loop: pop a table, append it to the result, process its
dependents.  The fuel argument only bounds the iteration count; called with
fuel at least `kahnMeasure` it runs until the queue is empty. -/
def kahnLoop (fuel : Nat) (deps : Nat → List Nat) (inDeg : List Int)
    (queue result : List Nat) : List Nat :=
  match fuel, queue with
  | _, [] => result
  | 0, _ => result
  | fuel + 1, current :: rest =>
    let (inDeg2, queue2) := processDeps (deps current) inDeg rest
    kahnLoop fuel deps inDeg2 queue2 (result ++ [current])

/-- Sort tables by foreign-key dependency (`topological_sort_tables`):
build per-column in-degrees and set-valued dependent lists, seed the queue
with zero-in-degree tables in input order, run Kahn's algorithm, and fail
with the circular-dependency error when not every table was processed. -/
def topologicalSortTables (tables : List TableSpec) : Except String (List TableSpec) :=
  let n := tables.length
  let inDeg := (List.range n).map (inDegInit tables)
  let queue := (List.range n).filter (fun i => decide (inDegInit tables i = 0))
  let resultIdx := kahnLoop (kahnMeasure inDeg queue) (depsOf tables) inDeg queue []
  if resultIdx.length = n then .ok (resultIdx.filterMap (fun i => tables.get? i))
  else .error "Circular dependency detected in table foreign keys"

/-- Number of tables not yet in `result` that table `x` still references
(sources whose pop will decrement `x`); each pop of such a source
decrements `x` by exactly one. -/
def remainingSources (tables : List TableSpec) (result : List Nat) (x : Nat) : Nat :=
  ((List.range tables.length).filter
    (fun j => (depsOf tables j).contains x && !(result.contains j))).length

/-- Invariant of the Kahn loop: in-degrees dominate the remaining source
counts, every table already seen has a nonpositive in-degree (so it can
never be enqueued again), the seen tables are duplicate-free and in range,
and no self-referencing table has been seen. -/
structure KahnInv (tables : List TableSpec) (inDeg : List Int)
    (queue result : List Nat) : Prop where
  len : inDeg.length = tables.length
  queueLt : ∀ x ∈ queue, x < tables.length
  resultLt : ∀ x ∈ result, x < tables.length
  degGe : ∀ x, x < tables.length → (remainingSources tables result x : Int) ≤ intGet inDeg x
  degLe : ∀ x ∈ result ++ queue, intGet inDeg x ≤ 0
  nodup : (result ++ queue).Nodup
  noSelf : ∀ x, (depsOf tables x).contains x → x ∉ result ++ queue

/-! Row mapper of the embedded engine (`SqliteDb.fetch` in
`embar/db/sqlite.py`).  The stdlib collaborators `json.loads` and
`datetime.strptime` with format `%Y-%m-%d %H:%M:%S` are parameters of the
embedding: an attempt either returns a parsed value or fails. -/

/-- A value as returned by the sqlite driver: a string, or anything else. -/
inductive DbValue (α : Type) where
  | str (s : String)
  | nonStr (v : α)

/-- A value after the mapper's fallback chain. -/
inductive MappedValue (J T α : Type) where
  | json (j : J)
  | time (t : T)
  | str (s : String)
  | nonStr (v : α)
deriving DecidableEq

/-- The per-value fallback of `SqliteDb.fetch`: for a string, try JSON
decoding, on failure try timestamp parsing, on failure keep the string;
pass every non-string value through untouched. -/
def convertValue {J T α : Type} (jsonLoads : String → Option J)
    (strptime : String → Option T) : DbValue α → MappedValue J T α
  | .str s =>
    match jsonLoads s with
    | some j => .json j
    | none =>
      match strptime s with
      | some t => .time t
      | none => .str s
  | .nonStr v => .nonStr v

/-- The row loop of `SqliteDb.fetch`: apply the fallback to every value of
a fetched row. -/
def convertRow {J T α : Type} (jsonLoads : String → Option J)
    (strptime : String → Option T) (row : List (String × DbValue α)) :
    List (String × MappedValue J T α) :=
  row.map (fun kv => (kv.1, convertValue jsonLoads strptime kv.2))

/-! Specification predicates for bind-parameter names. -/

/-- Every parameter in `ps` is named `<operator>_<columnName>_<index>` with
an index drawn from the interval `[lo, hi)`. -/
def NamesFrom (ps : List (String × PyValue)) (lo hi : Nat) : Prop :=
  ∀ p ∈ ps, ∃ op col i, p.1 = op ++ "_" ++ col ++ "_" ++ natStr i ∧ lo ≤ i ∧ i < hi

/-- The parameters of one render step: well-formed names indexed inside
`[lo, hi)`, pairwise distinct. -/
def ParamsOk (ps : List (String × PyValue)) (lo hi : Nat) : Prop :=
  NamesFrom ps lo hi ∧ (ps.map Prod.fst).Nodup

/-! Theorems.  First, decimal printing of the bind counter: the digits
contain no underscore and printing is injective, the two facts behind
bind-name collision freedom. -/

theorem digitChar_ne_underscore (d : Nat) : digitChar d ≠ '_' := by
  unfold digitChar
  split <;> decide

theorem natCharsCore_no_underscore (fuel n : Nat) (acc : List Char)
    (hacc : ∀ c ∈ acc, c ≠ '_') :
    ∀ c ∈ natCharsCore fuel n acc, c ≠ '_' := by
  induction fuel generalizing n acc with
  | zero => simpa [natCharsCore] using hacc
  | succ fuel ih =>
    rw [natCharsCore]
    split
    · intro c hc
      rcases List.mem_cons.mp hc with h | h
      · subst h; exact digitChar_ne_underscore n
      · exact hacc c h
    · refine ih _ _ ?_
      intro c hc
      rcases List.mem_cons.mp hc with h | h
      · subst h; exact digitChar_ne_underscore _
      · exact hacc c h

theorem natChars_no_underscore (n : Nat) : ∀ c ∈ natChars n, c ≠ '_' :=
  natCharsCore_no_underscore _ _ _ (by intro c hc; cases hc)

theorem natCharsCore_append (fuel n : Nat) (acc : List Char) (h : n < 10 ^ fuel) :
    natCharsCore fuel n acc = natCharsCore fuel n [] ++ acc := by
  induction n using Nat.strong_induction_on generalizing fuel acc with
  | _ n ih =>
    match fuel with
    | 0 => simp [natCharsCore]
    | fuel + 1 =>
      rw [natCharsCore, natCharsCore]
      split
      · simp
      · rename_i hn
        have hdiv : n / 10 < n := Nat.div_lt_self (by omega) (by omega)
        have hbound : n / 10 < 10 ^ fuel := by
          rw [Nat.div_lt_iff_lt_mul (by omega)]
          calc n < 10 ^ (fuel + 1) := h
            _ = 10 ^ fuel * 10 := by rw [Nat.pow_succ]
        rw [ih _ hdiv fuel _ hbound, ih _ hdiv fuel [digitChar (n % 10)] hbound,
          List.append_assoc]
        rfl

theorem natCharsCore_fuel_irrelevant (fuel1 fuel2 n : Nat)
    (h1 : n < 10 ^ fuel1) (h2 : n < 10 ^ fuel2) (p1 : 0 < fuel1) (p2 : 0 < fuel2) :
    natCharsCore fuel1 n [] = natCharsCore fuel2 n [] := by
  induction n using Nat.strong_induction_on generalizing fuel1 fuel2 with
  | _ n ih =>
    match fuel1, fuel2 with
    | 0, _ => omega
    | _ + 1, 0 => omega
    | fuel1 + 1, fuel2 + 1 =>
      rw [natCharsCore, natCharsCore]
      split
      · rfl
      · rename_i hn
        have hdiv : n / 10 < n := Nat.div_lt_self (by omega) (by omega)
        have hdivpos : 1 ≤ n / 10 := (Nat.one_le_div_iff (by omega)).mpr (by omega)
        have hb1 : n / 10 < 10 ^ fuel1 := by
          rw [Nat.div_lt_iff_lt_mul (by omega)]
          calc n < 10 ^ (fuel1 + 1) := h1
            _ = 10 ^ fuel1 * 10 := by rw [Nat.pow_succ]
        have hb2 : n / 10 < 10 ^ fuel2 := by
          rw [Nat.div_lt_iff_lt_mul (by omega)]
          calc n < 10 ^ (fuel2 + 1) := h2
            _ = 10 ^ fuel2 * 10 := by rw [Nat.pow_succ]
        have pf1 : 0 < fuel1 := by
          rcases Nat.eq_zero_or_pos fuel1 with hz | hp
          · subst hz; simp [Nat.pow_zero] at hb1; omega
          · exact hp
        have pf2 : 0 < fuel2 := by
          rcases Nat.eq_zero_or_pos fuel2 with hz | hp
          · subst hz; simp [Nat.pow_zero] at hb2; omega
          · exact hp
        rw [natCharsCore_append fuel1 _ _ hb1, natCharsCore_append fuel2 _ _ hb2,
          ih _ hdiv fuel1 fuel2 hb1 hb2 pf1 pf2]

theorem lt_ten_pow_self_succ (n : Nat) : n < 10 ^ (n + 1) := by
  calc n < 10 ^ n := Nat.lt_pow_self (by omega) n
    _ ≤ 10 ^ (n + 1) := Nat.pow_le_pow_right (by omega) (by omega)

theorem digitChar_val (d : Nat) (h : d < 10) : (digitChar d).toNat - 48 = d := by
  interval_cases d <;> decide

theorem decode_natChars (n : Nat) : decodeDigits (natChars n) = n := by
  induction n using Nat.strong_induction_on with
  | _ n ih =>
    unfold natChars
    rw [natCharsCore]
    split
    · rename_i hn
      simp only [decodeDigits, List.foldl]
      rw [digitChar_val n hn]
      omega
    · rename_i hn
      have hdiv : n / 10 < n := Nat.div_lt_self (by omega) (by omega)
      have hb : n / 10 < 10 ^ n := by
        calc n / 10 ≤ n := Nat.div_le_self n 10
          _ < 10 ^ n := Nat.lt_pow_self (by omega) n
      have hnpos : 0 < n := by omega
      rw [natCharsCore_append n _ _ hb,
        natCharsCore_fuel_irrelevant n (n / 10 + 1) _ hb (lt_ten_pow_self_succ _)
          hnpos (Nat.succ_pos _)]
      have hrec : decodeDigits (natChars (n / 10)) = n / 10 := ih _ hdiv
      unfold natChars at hrec
      simp only [decodeDigits] at hrec ⊢
      rw [List.foldl_append, hrec, List.foldl]
      simp only [List.foldl]
      rw [digitChar_val (n % 10) (Nat.mod_lt n (by omega))]
      omega

theorem natChars_injective {m n : Nat} (h : natChars m = natChars n) : m = n := by
  have := decode_natChars m
  rw [h, decode_natChars] at this
  omega

theorem string_mk_injective {a b : List Char} (h : String.mk a = String.mk b) : a = b :=
  congrArg String.data h

theorem natStr_injective {m n : Nat} (h : natStr m = natStr n) : m = n :=
  natChars_injective (string_mk_injective h)

theorem string_data_append (a b : String) : (a ++ b).data = a.data ++ b.data := rfl

theorem string_eq_of_data {a b : String} (h : a.data = b.data) : a = b := by
  cases a; cases b; exact congrArg String.mk h

/-! Splitting a character list at the final underscore: when the suffixes
are underscore-free the decomposition is unique. -/

theorem underscore_head_split (u : List Char) :
    ∀ (w v z : List Char), ('_' ∉ u) → ('_' ∉ w) →
    u ++ '_' :: v = w ++ '_' :: z → u = w ∧ v = z := by
  induction u with
  | nil =>
    intro w v z _ hw h
    match w with
    | [] => simpa using h
    | c :: w' =>
      simp only [List.nil_append, List.cons_append, List.cons.injEq] at h
      rw [← h.1] at hw
      exact absurd (List.mem_cons_self '_' w') hw
  | cons c u' ih =>
    intro w v z hu hw h
    match w with
    | [] =>
      simp only [List.cons_append, List.nil_append, List.cons.injEq] at h
      rw [h.1] at hu
      exact absurd (List.mem_cons_self '_' u') hu
    | c' :: w' =>
      simp only [List.cons_append, List.cons.injEq] at h
      obtain ⟨rfl, h2⟩ := h
      have := ih w' v z (fun hm => hu (List.mem_cons_of_mem _ hm))
        (fun hm => hw (List.mem_cons_of_mem _ hm)) h2
      exact ⟨by rw [this.1], this.2⟩

theorem underscore_last_split (a b x y : List Char)
    (hx : '_' ∉ x) (hy : '_' ∉ y)
    (h : a ++ '_' :: x = b ++ '_' :: y) : a = b ∧ x = y := by
  have hrev : x.reverse ++ '_' :: a.reverse = y.reverse ++ '_' :: b.reverse := by
    have := congrArg List.reverse h
    simpa [List.reverse_append] using this
  have := underscore_head_split x.reverse y.reverse a.reverse b.reverse
    (by simpa using hx) (by simpa using hy) hrev
  constructor
  · exact List.reverse_injective this.2
  · exact List.reverse_injective this.1

/-- Bind names determine their components: equal rendered names imply the
same descriptive part and the same counter index. -/
theorem bindName_inj {p q : String} {i j : Nat}
    (h : p ++ "_" ++ natStr i = q ++ "_" ++ natStr j) : p = q ∧ i = j := by
  have hdata : p.data ++ '_' :: (natChars i) = q.data ++ '_' :: (natChars j) := by
    have := congrArg String.data h
    simpa [string_data_append, natStr, List.append_assoc] using this
  have := underscore_last_split p.data q.data (natChars i) (natChars j)
    (by intro hm; exact (natChars_no_underscore i '_' hm) rfl)
    (by intro hm; exact (natChars_no_underscore j '_' hm) rfl) hdata
  exact ⟨string_eq_of_data this.1, natChars_injective this.2⟩

theorem string_append_right_cancel {s1 s2 t : String} (h : s1 ++ t = s2 ++ t) : s1 = s2 := by
  apply string_eq_of_data
  have hd : s1.data ++ t.data = s2.data ++ t.data := by
    rw [← string_data_append, ← string_data_append, h]
  exact List.append_cancel_right hd

/-! Properties of the `ParamsOk` render invariant. -/

theorem namesFrom_mono {ps : List (String × PyValue)} {lo hi lo' hi' : Nat}
    (h : NamesFrom ps lo hi) (hlo : lo' ≤ lo) (hhi : hi ≤ hi') : NamesFrom ps lo' hi' := by
  intro p hp
  obtain ⟨op, col, i, he, h1, h2⟩ := h p hp
  exact ⟨op, col, i, he, by omega, by omega⟩

theorem paramsOk_mono {ps : List (String × PyValue)} {lo hi lo' hi' : Nat}
    (h : ParamsOk ps lo hi) (hlo : lo' ≤ lo) (hhi : hi ≤ hi') : ParamsOk ps lo' hi' :=
  ⟨namesFrom_mono h.1 hlo hhi, h.2⟩

theorem paramsOk_nil (lo hi : Nat) : ParamsOk [] lo hi :=
  ⟨fun p hp => absurd hp (List.not_mem_nil p), List.nodup_nil⟩

/-- Parameters whose counter intervals are disjoint have distinct names. -/
theorem namesFrom_keys_disjoint {a b : List (String × PyValue)} {lo mid hi : Nat}
    (ha : NamesFrom a lo mid) (hb : NamesFrom b mid hi) :
    ∀ p ∈ a, ∀ q ∈ b, p.1 ≠ q.1 := by
  intro p hp q hq he
  obtain ⟨op1, col1, i1, he1, _, hlt1⟩ := ha p hp
  obtain ⟨op2, col2, i2, he2, hge2, _⟩ := hb q hq
  rw [he1, he2] at he
  have := bindName_inj he
  omega

theorem dictMerge_of_disjoint {a b : List (String × PyValue)}
    (h : ∀ p ∈ a, ∀ q ∈ b, p.1 ≠ q.1) : dictMerge a b = a ++ b := by
  unfold dictMerge
  have hmap : a.map (fun p =>
      match b.find? (fun q => q.1 == p.1) with
      | some q => (p.1, q.2)
      | none => p) = a := by
    induction a with
    | nil => rfl
    | cons p a ih =>
      simp only [List.map_cons]
      rw [ih (fun r hr q hq => h r (List.mem_cons_of_mem _ hr) q hq)]
      have hn : b.find? (fun q => q.1 == p.1) = none := by
        rw [List.find?_eq_none]
        intro q hq hbeq
        have hqp : q.1 = p.1 := by simpa [beq_iff_eq] using hbeq
        exact h p (List.mem_cons_self _ _) q hq hqp.symm
      rw [hn]
  have hfil : b.filter (fun q => !a.any (fun p => p.1 == q.1)) = b := by
    rw [List.filter_eq_self]
    intro q hq
    simp only [Bool.not_eq_true', List.any_eq_false]
    intro p hp
    simp only [beq_iff_eq]
    exact h p hp q hq
  rw [hmap, hfil]

/-- Merging two renders over adjacent counter intervals: the Python dict
merge is plain concatenation and the result satisfies the invariant over
the union interval. -/
theorem paramsOk_merge {a b : List (String × PyValue)} {lo mid hi : Nat}
    (ha : ParamsOk a lo mid) (hb : ParamsOk b mid hi)
    (hlm : lo ≤ mid) (hmh : mid ≤ hi) :
    dictMerge a b = a ++ b ∧ ParamsOk (a ++ b) lo hi := by
  have hdisj := namesFrom_keys_disjoint ha.1 hb.1
  refine ⟨dictMerge_of_disjoint hdisj, ⟨?_, ?_⟩⟩
  · intro p hp
    rcases List.mem_append.mp hp with hp | hp
    · exact namesFrom_mono ha.1 (le_refl lo) hmh p hp
    · exact namesFrom_mono hb.1 hlm (le_refl hi) p hp
  · rw [List.map_append, List.nodup_append]
    refine ⟨ha.2, hb.2, ?_⟩
    intro k hka hkb
    obtain ⟨p, hp, rfl⟩ := List.mem_map.mp hka
    obtain ⟨q, hq, hqe⟩ := List.mem_map.mp hkb
    exact hdisj p hp q hq hqe.symm

theorem paramsOk_single (op col pre : String) (hpre : pre = op ++ "_" ++ col)
    (i : Nat) (v : PyValue) :
    ParamsOk [(pre ++ "_" ++ natStr i, v)] i (i + 1) := by
  constructor
  · intro p hp
    simp only [List.mem_singleton] at hp
    subst hp
    exact ⟨op, col, i, by rw [hpre], le_refl i, Nat.lt_succ_self i⟩
  · simp

theorem paramsOk_pair (op1 op2 col pre1 pre2 : String)
    (h1 : pre1 = op1 ++ "_" ++ col) (h2 : pre2 = op2 ++ "_" ++ col)
    (hne : pre1 ≠ pre2) (i : Nat) (v1 v2 : PyValue) :
    ParamsOk [(pre1 ++ "_" ++ natStr i, v1), (pre2 ++ "_" ++ natStr i, v2)] i (i + 1) := by
  constructor
  · intro p hp
    rcases List.mem_cons.mp hp with hp | hp
    · subst hp
      exact ⟨op1, col, i, by rw [h1], le_refl i, Nat.lt_succ_self i⟩
    · simp only [List.mem_singleton] at hp
      subst hp
      exact ⟨op2, col, i, by rw [h2], le_refl i, Nat.lt_succ_self i⟩
  · simp only [List.map_cons, List.map_nil, List.nodup_cons, List.mem_singleton,
      List.nodup_nil, and_true, List.not_mem_nil, not_false_iff]
    intro h
    exact hne (bindName_inj h).1

/-- Rendering any WHERE clause from counter value `n` advances the counter
and produces parameters with well-formed, pairwise distinct names indexed
inside the consumed interval. -/
theorem get_paramsOk (c : WhereClause) (n : Nat) :
    n ≤ (c.get n).2 ∧ ParamsOk (c.get n).1.params n (c.get n).2 := by
  induction c generalizing n with
  | eq left right =>
    cases right with
    | col r => exact ⟨Nat.le_succ n, by simp only [WhereClause.get]; exact paramsOk_nil _ _⟩
    | val v =>
      exact ⟨Nat.le_succ n, by
        simp only [WhereClause.get]; exact paramsOk_single "eq" left.name _ rfl n v⟩
  | ne left right =>
    cases right with
    | col r => exact ⟨Nat.le_succ n, by simp only [WhereClause.get]; exact paramsOk_nil _ _⟩
    | val v =>
      exact ⟨Nat.le_succ n, by
        simp only [WhereClause.get]; exact paramsOk_single "ne" left.name _ rfl n v⟩
  | gt left right =>
    cases right with
    | col r => exact ⟨Nat.le_succ n, by simp only [WhereClause.get]; exact paramsOk_nil _ _⟩
    | val v =>
      exact ⟨Nat.le_succ n, by
        simp only [WhereClause.get]; exact paramsOk_single "gt" left.name _ rfl n v⟩
  | gte left right =>
    cases right with
    | col r => exact ⟨Nat.le_succ n, by simp only [WhereClause.get]; exact paramsOk_nil _ _⟩
    | val v =>
      exact ⟨Nat.le_succ n, by
        simp only [WhereClause.get]; exact paramsOk_single "gte" left.name _ rfl n v⟩
  | lt left right =>
    cases right with
    | col r => exact ⟨Nat.le_succ n, by simp only [WhereClause.get]; exact paramsOk_nil _ _⟩
    | val v =>
      exact ⟨Nat.le_succ n, by
        simp only [WhereClause.get]; exact paramsOk_single "lt" left.name _ rfl n v⟩
  | lte left right =>
    cases right with
    | col r => exact ⟨Nat.le_succ n, by simp only [WhereClause.get]; exact paramsOk_nil _ _⟩
    | val v =>
      exact ⟨Nat.le_succ n, by
        simp only [WhereClause.get]; exact paramsOk_single "lte" left.name _ rfl n v⟩
  | like left right =>
    cases right with
    | col r => exact ⟨Nat.le_succ n, by simp only [WhereClause.get]; exact paramsOk_nil _ _⟩
    | val v =>
      exact ⟨Nat.le_succ n, by
        simp only [WhereClause.get]; exact paramsOk_single "like" left.name _ rfl n v⟩
  | ilike left right =>
    cases right with
    | col r => exact ⟨Nat.le_succ n, by simp only [WhereClause.get]; exact paramsOk_nil _ _⟩
    | val v =>
      exact ⟨Nat.le_succ n, by
        simp only [WhereClause.get]; exact paramsOk_single "ilike" left.name _ rfl n v⟩
  | notLike left right =>
    cases right with
    | col r => exact ⟨Nat.le_succ n, by simp only [WhereClause.get]; exact paramsOk_nil _ _⟩
    | val v =>
      exact ⟨Nat.le_succ n, by
        simp only [WhereClause.get]; exact paramsOk_single "notlike" left.name _ rfl n v⟩
  | isNull column =>
    exact ⟨le_refl n, by simp only [WhereClause.get]; exact paramsOk_nil _ _⟩
  | isNotNull column =>
    exact ⟨le_refl n, by simp only [WhereClause.get]; exact paramsOk_nil _ _⟩
  | inArray column values =>
    exact ⟨Nat.le_succ n, by
      simp only [WhereClause.get]; exact paramsOk_single "in" column.name _ rfl n _⟩
  | notInArray column values =>
    exact ⟨Nat.le_succ n, by
      simp only [WhereClause.get]; exact paramsOk_single "notin" column.name _ rfl n _⟩
  | between column lower upper =>
    refine ⟨Nat.le_succ n, ?_⟩
    simp only [WhereClause.get]
    exact paramsOk_pair "between_lower" "between_upper" column.name _ _ rfl rfl
      (fun h => absurd (string_append_right_cancel h) (by decide)) n lower upper
  | notBetween column lower upper =>
    refine ⟨Nat.le_succ n, ?_⟩
    simp only [WhereClause.get]
    exact paramsOk_pair "notbetween_lower" "notbetween_upper" column.name _ _ rfl rfl
      (fun h => absurd (string_append_right_cancel h) (by decide)) n lower upper
  | not clause ih =>
    rcases hc : clause.get n with ⟨inner, m⟩
    have := ih n
    rw [hc] at this
    constructor
    · simpa [WhereClause.get, hc] using this.1
    · simpa [WhereClause.get, hc] using this.2
  | and left right ihl ihr =>
    rcases hl : left.get n with ⟨l, n1⟩
    rcases hr : right.get n1 with ⟨r, n2⟩
    have hL := ihl n; rw [hl] at hL
    have hR := ihr n1; rw [hr] at hR
    have hm := paramsOk_merge hL.2 hR.2 hL.1 hR.1
    constructor
    · simp only [WhereClause.get, hl, hr]
      omega
    · simp only [WhereClause.get, hl, hr]
      rw [hm.1]
      exact hm.2
  | or left right ihl ihr =>
    rcases hl : left.get n with ⟨l, n1⟩
    rcases hr : right.get n1 with ⟨r, n2⟩
    have hL := ihl n; rw [hl] at hL
    have hR := ihr n1; rw [hr] at hR
    have hm := paramsOk_merge hL.2 hR.2 hL.1 hR.1
    constructor
    · simp only [WhereClause.get, hl, hr]
      omega
    · simp only [WhereClause.get, hl, hr]
      rw [hm.1]
      exact hm.2

/-- Rendering a join inherits the parameter invariant of its ON clause. -/
theorem joinGet_paramsOk (j : JoinClause) (n : Nat) :
    n ≤ (j.get n).2 ∧ ParamsOk (j.get n).1.params n (j.get n).2 := by
  cases j with
  | leftJoin t onc =>
    rcases h : onc.get n with ⟨d, m⟩
    have hs := get_paramsOk onc n; rw [h] at hs
    exact ⟨by simpa [JoinClause.get, h] using hs.1, by simpa [JoinClause.get, h] using hs.2⟩
  | rightJoin t onc =>
    rcases h : onc.get n with ⟨d, m⟩
    have hs := get_paramsOk onc n; rw [h] at hs
    exact ⟨by simpa [JoinClause.get, h] using hs.1, by simpa [JoinClause.get, h] using hs.2⟩
  | innerJoin t onc =>
    rcases h : onc.get n with ⟨d, m⟩
    have hs := get_paramsOk onc n; rw [h] at hs
    exact ⟨by simpa [JoinClause.get, h] using hs.1, by simpa [JoinClause.get, h] using hs.2⟩
  | fullJoin t onc =>
    rcases h : onc.get n with ⟨d, m⟩
    have hs := get_paramsOk onc n; rw [h] at hs
    exact ⟨by simpa [JoinClause.get, h] using hs.1, by simpa [JoinClause.get, h] using hs.2⟩
  | crossJoin t =>
    exact ⟨le_refl n, by simp only [JoinClause.get]; exact paramsOk_nil _ _⟩

/-- The join loop preserves the parameter invariant while advancing the
shared counter. -/
theorem joinLoop_paramsOk (js : List JoinClause) :
    ∀ (sql : String) (params : List (String × PyValue)) (n lo : Nat),
    ParamsOk params lo n → lo ≤ n →
    n ≤ (joinLoop js sql params n).2.2 ∧
      ParamsOk (joinLoop js sql params n).2.1 lo (joinLoop js sql params n).2.2 := by
  induction js with
  | nil =>
    intro sql params n lo hp _
    exact ⟨le_refl n, hp⟩
  | cons j js ih =>
    intro sql params n lo hp hlo
    rcases hg : j.get n with ⟨d, m⟩
    have hj := joinGet_paramsOk j n; rw [hg] at hj
    have hmerge := paramsOk_merge hp hj.2 hlo hj.1
    have step : joinLoop (j :: js) sql params n =
        joinLoop js (sql ++ "\n" ++ d.sql) (dictMerge params d.params) m := by
      simp [joinLoop, hg]
    rw [step, hmerge.1]
    have := ih (sql ++ "\n" ++ d.sql) (params ++ d.params) m lo hmerge.2
      (Nat.le_trans hlo hj.1)
    exact ⟨Nat.le_trans hj.1 this.1, this.2⟩

/-- The WHERE step preserves the parameter invariant. -/
theorem whereStep_paramsOk (wc : Option WhereClause)
    (st : String × List (String × PyValue) × Nat) (lo : Nat)
    (hp : ParamsOk st.2.1 lo st.2.2) (hlo : lo ≤ st.2.2) :
    st.2.2 ≤ (whereStep wc st).2.2 ∧
      ParamsOk (whereStep wc st).2.1 lo (whereStep wc st).2.2 := by
  rcases st with ⟨sql, params, count⟩
  cases wc with
  | none => exact ⟨le_refl _, hp⟩
  | some w =>
    rcases hg : w.get count with ⟨d, m⟩
    have hw := get_paramsOk w count; rw [hg] at hw
    have hmerge := paramsOk_merge hp hw.2 hlo hw.1
    constructor
    · simpa [whereStep, hg] using hw.1
    · simp only [whereStep, hg]
      rw [hmerge.1]
      exact hmerge.2

/-- The GROUP BY step leaves parameters and counter untouched. -/
theorem groupStep_paramsOk (gc : Option (List ColumnInfo))
    (st : String × List (String × PyValue) × Nat) :
    (groupStep gc st).2 = st.2 := by
  rcases st with ⟨sql, params, count⟩
  cases gc <;> simp [groupStep]

/-- The HAVING step preserves the parameter invariant. -/
theorem havingStep_paramsOk (hc : Option WhereClause)
    (st : String × List (String × PyValue) × Nat) (lo : Nat)
    (hp : ParamsOk st.2.1 lo st.2.2) (hlo : lo ≤ st.2.2) :
    st.2.2 ≤ (havingStep hc st).2.2 ∧
      ParamsOk (havingStep hc st).2.1 lo (havingStep hc st).2.2 := by
  rcases st with ⟨sql, params, count⟩
  cases hc with
  | none => exact ⟨le_refl _, hp⟩
  | some h =>
    rcases hg : h.get count with ⟨d, m⟩
    have hw := get_paramsOk h count; rw [hg] at hw
    have hmerge := paramsOk_merge hp hw.2 hlo hw.1
    constructor
    · simpa [havingStep, hg] using hw.1
    · simp only [havingStep, hg]
      rw [hmerge.1]
      exact hmerge.2

/-- The parameters of a full render pass satisfy the invariant starting
from counter zero. -/
theorem selectBody_paramsOk (q : SelectQueryReady) :
    ParamsOk (selectBody q).2.1 0 (selectBody q).2.2 := by
  have h0 : ParamsOk ([] : List (String × PyValue)) 0 0 := paramsOk_nil 0 0
  have hj := joinLoop_paramsOk q.joins (selectBase q) [] 0 0 h0 (le_refl 0)
  have hw := whereStep_paramsOk q.whereClause _ 0 hj.2 (Nat.zero_le _)
  have hgp : ParamsOk (groupStep q.groupClause
      (whereStep q.whereClause (joinLoop q.joins (selectBase q) [] 0))).2.1 0
      (groupStep q.groupClause
      (whereStep q.whereClause (joinLoop q.joins (selectBase q) [] 0))).2.2 := by
    rw [groupStep_paramsOk]
    exact hw.2
  have hh := havingStep_paramsOk q.havingClause _ 0 hgp (Nat.zero_le _)
  exact hh.2

/-- The rendered query exposes exactly the parameters of the body pass. -/
theorem sql_params_eq_body (q : SelectQueryReady) :
    (q.sql).params = (selectBody q).2.1 := by
  rcases hb : selectBody q with ⟨s, ps, cnt⟩
  simp only [SelectQueryReady.sql, hb]

/-- C3: for every select render pass (joins, where and having over the one
shared counter), every bound-parameter name has the form
`<operator>_<columnName>_<index>`, and no two parameters produced in one
render share a name. -/
theorem c3_bind_names_unique (q : SelectQueryReady) :
    (∀ p ∈ (q.sql).params, ∃ op col i, p.1 = op ++ "_" ++ col ++ "_" ++ natStr i) ∧
    ((q.sql).params.map Prod.fst).Nodup := by
  have h := selectBody_paramsOk q
  rw [sql_params_eq_body]
  constructor
  · intro p hp
    obtain ⟨op, col, i, he, _, _⟩ := h.1 p hp
    exact ⟨op, col, i, he⟩
  · exact h.2

/-- C4: the code renders `And(Eq(col,1), Or(Eq(col,2), Eq(col,3)))` with no
parentheses around the `Or` operand — `<fqn> = %(eq_col_0)s AND <fqn> =
%(eq_col_1)s OR <fqn> = %(eq_col_2)s` — although the parameter map is the
claimed one; SQL operator precedence therefore groups the rendered text as
`(... AND ...) OR ...`, not as the claim's parenthesized form. -/
theorem c4_or_not_parenthesized :
    ((WhereClause.and (.eq ⟨"t", "col"⟩ (.val (.int 1)))
        (.or (.eq ⟨"t", "col"⟩ (.val (.int 2)))
             (.eq ⟨"t", "col"⟩ (.val (.int 3))))).get 0).1.sql =
      "\"t\".\"col\" = %(eq_col_0)s AND \"t\".\"col\" = %(eq_col_1)s OR \"t\".\"col\" = %(eq_col_2)s" ∧
    ((WhereClause.and (.eq ⟨"t", "col"⟩ (.val (.int 1)))
        (.or (.eq ⟨"t", "col"⟩ (.val (.int 2)))
             (.eq ⟨"t", "col"⟩ (.val (.int 3))))).get 0).1.params =
      [("eq_col_0", .int 1), ("eq_col_1", .int 2), ("eq_col_2", .int 3)] ∧
    ((WhereClause.and (.eq ⟨"t", "col"⟩ (.val (.int 1)))
        (.or (.eq ⟨"t", "col"⟩ (.val (.int 2)))
             (.eq ⟨"t", "col"⟩ (.val (.int 3))))).get 0).1.sql ≠
      "\"t\".\"col\" = %(eq_col_0)s AND (\"t\".\"col\" = %(eq_col_1)s OR \"t\".\"col\" = %(eq_col_2)s)" := by
  refine ⟨rfl, rfl, by decide⟩

/-- C5 counterexample: a select with one join whose ON clause is a pure
column-to-column `Eq` and a WHERE clause binding one literal names that
literal `eq_c_1`, not `eq_c_0`: the join consumed counter index 0 despite
binding nothing. -/
theorem c5_join_consumes_counter_counterexample :
    ((SelectQueryReady.mk ⟨[("id", .columnRef ⟨"a", "id"⟩)]⟩ ⟨"a", [("id", "id")]⟩
        .postgres false
        [.leftJoin ⟨"b", [("id", "id")]⟩ (.eq ⟨"a", "id"⟩ (.col ⟨"b", "id"⟩))]
        (some (.eq ⟨"a", "c"⟩ (.val (.int 5)))) none none none none none).sql).params.map
        Prod.fst = ["eq_c_1"] ∧
    ("eq_c_1" : String) ≠ "eq_c_0" := by
  refine ⟨rfl, by decide⟩

/-- C5 amended: joins render in append order, threading the shared
counter; but every comparison node consumes one counter index even when its
right operand is a column (so it binds no parameter), hence a join whose ON
clause is a column-to-column `Eq` advances the counter by one and the first
literal bound later in the pass receives index 1, not 0. -/
theorem c5_join_counter_amended :
    (∀ (l r : ColumnInfo) (n : Nat),
      (WhereClause.eq l (.col r)).get n = (⟨l.fqn ++ " = " ++ r.fqn, []⟩, n + 1)) ∧
    (∀ (jc : JoinClause) (js : List JoinClause) (sql : String)
        (params : List (String × PyValue)) (n : Nat),
      joinLoop (jc :: js) sql params n =
        joinLoop js (sql ++ "\n" ++ (jc.get n).1.sql)
          (dictMerge params (jc.get n).1.params) (jc.get n).2) ∧
    (∀ (q : SelectQueryReady) (t : TableInfo) (onc : WhereClause),
      (q.leftJoin t onc).joins = q.joins ++ [JoinClause.leftJoin t onc]) := by
  refine ⟨fun l r n => rfl, ?_, fun q t onc => rfl⟩
  intro jc js sql params n
  rcases h : jc.get n with ⟨d, m⟩
  simp [joinLoop, h]

/-- C6: `where` has replace semantics — a second call leaves the builder
exactly as if only the second call had happened, hence also the same
rendered query — while `order_by` has append semantics: a second call
appends its clauses after those of the first. -/
theorem c6_where_replaces_order_by_appends (q : SelectQueryReady) (w1 w2 : WhereClause)
    (cs1 cs2 : List OrderByClause) :
    (q.where' w1).where' w2 = q.where' w2 ∧
    ((q.where' w1).where' w2).sql = (q.where' w2).sql ∧
    ((q.orderBy cs1).orderBy cs2).orderClause = some (q.orderClause.getD [] ++ cs1 ++ cs2) := by
  refine ⟨rfl, rfl, ?_⟩
  cases hoc : q.orderClause with
  | none => simp [SelectQueryReady.orderBy, hoc]
  | some old => simp [SelectQueryReady.orderBy, hoc, List.append_assoc]

/-- C7 counterexample: rendering an INSERT whose `values()` received zero
rows does not fail — it silently returns a well-formed query with an empty
`many_params` list. -/
theorem c7_insert_no_rows_counterexample :
    InsertQueryReady.sql ⟨⟨"my_table", [("my_col", "my_col")]⟩, []⟩ =
      ⟨"INSERT INTO \"my_table\" (\"my_col\") VALUES (%(my_col)s)", [], []⟩ := rfl

/-- C7 amended: rendering an UPDATE on which `set()` was never called
fails with `BuilderStateError` (modelled from the spec, the `Undefined`
sentinel being outside the source tree), while rendering an INSERT with
zero rows succeeds silently, producing the INSERT statement with an empty
`many_params` list. -/
theorem c7_update_insert_amended :
    (∀ (t : TableInfo) (wc : Option WhereClause),
      updateBuildSql t none wc = .error .builderStateError) ∧
    (∀ t : TableInfo, InsertQueryReady.sql ⟨t, []⟩ =
      ⟨"INSERT INTO " ++ t.fqn ++ " (" ++
          String.intercalate ", " ((t.columns.map Prod.snd).map (fun c => "\"" ++ c ++ "\"")) ++
          ") VALUES (" ++
          String.intercalate ", " ((t.columns.map Prod.snd).map (fun c => "%(" ++ c ++ ")s")) ++
          ")", [], []⟩) :=
  ⟨fun _ _ => rfl, fun _ => rfl⟩

/-- C8: selection-field projection is dialect-dispatched exactly as
specified: a many-column aggregate renders `array_agg(<fqn>)` on Postgres
and `json_group_array(<fqn>)` on sqlite; a many-table aggregate renders
`json_agg(json_build_object(...))` on Postgres and
`json_group_array(json_object(...))` on sqlite, both from the identical
`'<field>', <table>."<col>"` pairs covering every column of the referenced
table. -/
theorem c8_selection_dialect_dispatch (c : ColumnInfo) (t : TableInfo) :
    sourceExpr .postgres (.manyColumn c) = "array_agg(" ++ c.fqn ++ ")" ∧
    sourceExpr .sqlite (.manyColumn c) = "json_group_array(" ++ c.fqn ++ ")" ∧
    sourceExpr .postgres (.manyTable t) =
      "json_agg(json_build_object(" ++
        String.intercalate ", "
          (t.columns.map (fun fc => "'" ++ fc.1 ++ "', " ++ t.fqn ++ ".\"" ++ fc.2 ++ "\"")) ++
        "))" ∧
    sourceExpr .sqlite (.manyTable t) =
      "json_group_array(json_object(" ++
        String.intercalate ", "
          (t.columns.map (fun fc => "'" ++ fc.1 ++ "', " ++ t.fqn ++ ".\"" ++ fc.2 ++ "\"")) ++
        "))" :=
  ⟨rfl, rfl, rfl, rfl⟩

/-- C9: the sqlite row mapper applies the ordered fallback exactly: a
string value is JSON-decoded if possible; only if that fails is timestamp
parsing attempted; only if that also fails is the string kept unchanged;
and non-string values pass through untouched. -/
theorem c9_fetch_ordered_fallback {J T α : Type} (jsonLoads : String → Option J)
    (strptime : String → Option T) :
    (∀ (s : String) (j : J), jsonLoads s = some j →
      @convertValue J T α jsonLoads strptime (.str s) = .json j) ∧
    (∀ (s : String) (t : T), jsonLoads s = none → strptime s = some t →
      @convertValue J T α jsonLoads strptime (.str s) = .time t) ∧
    (∀ s : String, jsonLoads s = none → strptime s = none →
      @convertValue J T α jsonLoads strptime (.str s) = .str s) ∧
    (∀ v : α, @convertValue J T α jsonLoads strptime (.nonStr v) = .nonStr v) := by
  refine ⟨?_, ?_, ?_, ?_⟩
  · intro s j hj
    simp [convertValue, hj]
  · intro s t hj ht
    simp [convertValue, hj, ht]
  · intro s hj ht
    simp [convertValue, hj, ht]
  · intro v
    rfl

/-- C9 witness: the fallback chain evaluated at concrete decoders and
values. -/
theorem c9_fetch_ordered_fallback_witness :
    (@convertValue Nat Nat Int (fun s => if s = "[1]" then some 1 else none)
      (fun s => if s = "2021-01-01 00:00:00" then some 7 else none) (.str "[1]") = .json 1) ∧
    (@convertValue Nat Nat Int (fun s => if s = "[1]" then some 1 else none)
      (fun s => if s = "2021-01-01 00:00:00" then some 7 else none)
      (.str "2021-01-01 00:00:00") = .time 7) ∧
    (@convertValue Nat Nat Int (fun s => if s = "[1]" then some 1 else none)
      (fun s => if s = "2021-01-01 00:00:00" then some 7 else none) (.str "plain") =
      .str "plain") ∧
    (@convertValue Nat Nat Int (fun s => if s = "[1]" then some 1 else none)
      (fun s => if s = "2021-01-01 00:00:00" then some 7 else none) (.nonStr 5) =
      .nonStr 5) := by
  have h := @c9_fetch_ordered_fallback Nat Nat Int
    (fun s => if s = "[1]" then some 1 else none)
    (fun s => if s = "2021-01-01 00:00:00" then some 7 else none)
  exact ⟨h.1 "[1]" 1 (by decide), h.2.1 "2021-01-01 00:00:00" 7 (by decide) (by decide),
    h.2.2.1 "plain" (by decide) (by decide), h.2.2.2 5⟩

/-- C10: a `Like` clause whose right operand is a column renders a
column-to-column comparison with no bound parameter, and its emitted
operator is `=` rather than `LIKE`; `Ilike` and `NotLike` keep `ILIKE` and
`NOT LIKE` in the column-to-column case, also with no bound parameter. -/
theorem c10_like_column_comparison (l r : ColumnInfo) (n : Nat) :
    (WhereClause.like l (.col r)).get n = (⟨l.fqn ++ " = " ++ r.fqn, []⟩, n + 1) ∧
    (WhereClause.ilike l (.col r)).get n = (⟨l.fqn ++ " ILIKE " ++ r.fqn, []⟩, n + 1) ∧
    (WhereClause.notLike l (.col r)).get n =
      (⟨l.fqn ++ " NOT LIKE " ++ r.fqn, []⟩, n + 1) :=
  ⟨rfl, rfl, rfl⟩

/-- C2: the sort handles the simple Message-to-User dependency, but a table
with two foreign-key columns into the same referenced table makes the
acyclic input fail with the circular-dependency error, because the
in-degree counts one per column while Kahn's algorithm decrements once per
distinct edge. -/
theorem c2_duplicate_fk_spurious_cycle :
    topologicalSortTables [⟨"message", ["user"]⟩, ⟨"user", []⟩] =
      .ok [⟨"user", []⟩, ⟨"message", ["user"]⟩] ∧
    topologicalSortTables [⟨"message", ["user", "user"]⟩, ⟨"user", []⟩] =
      .error "Circular dependency detected in table foreign keys" :=
  ⟨rfl, rfl⟩

/-- C1 counterexample: an input consisting of one self-referencing table
and no other cycle raises the circular-dependency error instead of
sorting successfully. -/
theorem c1_self_reference_counterexample :
    topologicalSortTables [⟨"account", ["account"]⟩] =
      .error "Circular dependency detected in table foreign keys" := rfl

/-! Analysis of the Kahn loop, for the self-reference behavior of the
dependency sorter. -/

theorem list_contains_iff {α : Type} [BEq α] [LawfulBEq α] (l : List α) (a : α) :
    l.contains a = true ↔ a ∈ l := by
  simp [List.contains, List.elem_iff]

theorem two_mem_length_le {α : Type} {l : List α} {a b : α}
    (ha : a ∈ l) (hb : b ∈ l) (hab : a ≠ b) : 2 ≤ l.length := by
  match l with
  | [] => cases ha
  | [x] =>
    rw [List.mem_singleton] at ha hb
    exact absurd (ha.trans hb.symm) hab
  | x :: y :: rest => simp [List.length_cons]

theorem mem_length_pos {α : Type} {l : List α} {a : α} (ha : a ∈ l) : 1 ≤ l.length :=
  List.length_pos.mpr (fun h => by subst h; cases ha)

theorem nodup_eq_singleton {α : Type} {l : List α} {a : α}
    (hnd : l.Nodup) (hmem : a ∈ l) (hall : ∀ b ∈ l, b = a) : l = [a] := by
  match l with
  | [] => cases hmem
  | b :: rest =>
    have hb : b = a := hall b (List.mem_cons_self _ _)
    subst hb
    have : rest = [] := by
      cases rest with
      | nil => rfl
      | cons c rest' =>
        have hc : c = b := hall c (List.mem_cons_of_mem _ (List.mem_cons_self _ _))
        subst hc
        exact absurd (List.mem_cons_self c rest') (List.nodup_cons.mp hnd).1
    rw [this]

/-- Decrementing a batch of duplicate-free in-range indices changes each
in-degree by exactly its membership in the batch. -/
theorem processDeps_inDeg (ds : List Nat) :
    ∀ (inDeg : List Int) (queue : List Nat), ds.Nodup →
    (∀ d ∈ ds, d < inDeg.length) → ∀ x : Nat,
    intGet (processDeps ds inDeg queue).1 x =
      intGet inDeg x - (if x ∈ ds then 1 else 0) := by
  induction ds with
  | nil =>
    intro inDeg queue _ _ x
    simp [processDeps]
  | cons d rest ih =>
    intro inDeg queue hnd hlt x
    have hdlt : d < inDeg.length := hlt d (List.mem_cons_self _ _)
    have hnd' := List.nodup_cons.mp hnd
    simp only [processDeps]
    have hrec := ih (inDeg.set d (intGet inDeg d - 1))
      (if intGet inDeg d - 1 = 0 then queue ++ [d] else queue) hnd'.2
      (fun e he => by rw [List.length_set]; exact hlt e (List.mem_cons_of_mem _ he)) x
    rw [hrec]
    by_cases hx : x = d
    · subst hx
      have hget : intGet (inDeg.set x (intGet inDeg x - 1)) x = intGet inDeg x - 1 := by
        unfold intGet
        rw [List.get?_set_eq]
        have : inDeg.get? x = some (inDeg.get ⟨x, hdlt⟩) := List.get?_eq_get hdlt
        rw [this]
        rfl
      rw [hget]
      have hxn : x ∉ rest := hnd'.1
      simp [hxn]
    · have hget : intGet (inDeg.set d (intGet inDeg d - 1)) x = intGet inDeg x := by
        unfold intGet
        rw [List.get?_set_ne _ _ (fun h => hx h.symm)]
      rw [hget]
      simp [List.mem_cons, hx]

/-- The batch appends to the queue exactly the batch members whose
in-degree was one before the batch, in batch order. -/
theorem processDeps_queue (ds : List Nat) :
    ∀ (inDeg : List Int) (queue : List Nat), ds.Nodup →
    (∀ d ∈ ds, d < inDeg.length) →
    (processDeps ds inDeg queue).2 =
      queue ++ ds.filter (fun d => decide (intGet inDeg d = 1)) := by
  induction ds with
  | nil =>
    intro inDeg queue _ _
    simp [processDeps]
  | cons d rest ih =>
    intro inDeg queue hnd hlt
    have hdlt : d < inDeg.length := hlt d (List.mem_cons_self _ _)
    have hnd' := List.nodup_cons.mp hnd
    rw [processDeps]
    have hrec := ih (inDeg.set d (intGet inDeg d - 1))
      (if intGet inDeg d - 1 = 0 then queue ++ [d] else queue) hnd'.2
      (fun e he => by rw [List.length_set]; exact hlt e (List.mem_cons_of_mem _ he))
    rw [hrec]
    have hfil : rest.filter (fun e => decide (intGet (inDeg.set d (intGet inDeg d - 1)) e = 1)) =
        rest.filter (fun e => decide (intGet inDeg e = 1)) := by
      apply List.filter_congr
      intro e he
      have hed : e ≠ d := fun h => hnd'.1 (h ▸ he)
      have : intGet (inDeg.set d (intGet inDeg d - 1)) e = intGet inDeg e := by
        unfold intGet
        rw [List.get?_set_ne _ _ hed.symm]
      rw [this]
    rw [hfil]
    rw [List.filter_cons]
    by_cases hone : intGet inDeg d = 1
    · have hz : intGet inDeg d - 1 = 0 := by omega
      simp [hz, hone, List.append_assoc]
    · have hz : ¬ (intGet inDeg d - 1 = 0) := by omega
      simp [hz, hone]

theorem processDeps_length (ds : List Nat) :
    ∀ (inDeg : List Int) (queue : List Nat),
    (processDeps ds inDeg queue).1.length = inDeg.length := by
  induction ds with
  | nil => intro inDeg queue; simp [processDeps]
  | cons d rest ih =>
    intro inDeg queue
    rw [processDeps, ih, List.length_set]

/-- Members of a dependents list are valid table indices. -/
theorem depsOf_lt (tables : List TableSpec) (j : Nat) :
    ∀ x ∈ depsOf tables j, x < tables.length := by
  intro x hx
  have := List.mem_filter.mp hx
  exact List.mem_range.mp this.1

theorem depsOf_nodup (tables : List TableSpec) (j : Nat) : (depsOf tables j).Nodup :=
  List.Nodup.filter _ (List.nodup_range _)

theorem mem_depsOf (tables : List TableSpec) (j x : Nat) :
    x ∈ depsOf tables j ↔ x < tables.length ∧ j ∈ resolvedRefs tables x := by
  unfold depsOf
  rw [List.mem_filter, List.mem_range, list_contains_iff]

theorem contains_append_singleton (res : List Nat) (c j : Nat) :
    (res ++ [c]).contains j = (res.contains j || (j == c)) := by
  by_cases h : j ∈ res ++ [c]
  · have h1 : (res ++ [c]).contains j = true := (list_contains_iff _ _).mpr h
    rw [h1]
    rcases List.mem_append.mp h with h2 | h2
    · rw [(list_contains_iff res j).mpr h2, Bool.true_or]
    · rw [List.mem_singleton] at h2
      subst h2
      simp
  · have h1 : (res ++ [c]).contains j = false := by
      rw [← Bool.not_eq_true]
      intro hc
      exact h ((list_contains_iff _ _).mp hc)
    rw [h1]
    have h2 : j ∉ res := fun hm => h (List.mem_append.mpr (Or.inl hm))
    have h3 : j ≠ c := fun he => h (List.mem_append.mpr (Or.inr (he ▸ List.mem_singleton_self c)))
    have h4 : res.contains j = false := by
      rw [← Bool.not_eq_true]
      intro hc
      exact h2 ((list_contains_iff _ _).mp hc)
    rw [h4]
    simp [h3]

/-- Restricting a filter by `j ≠ c` removes exactly one element when `c`
is a member satisfying the original predicate. -/
theorem length_filter_minus {l : List Nat} (c : Nat) (p q : Nat → Bool)
    (hnd : l.Nodup) (hq : ∀ j ∈ l, q j = (p j && !(j == c))) :
    (l.filter q).length = (l.filter p).length -
      (if c ∈ l ∧ p c = true then 1 else 0) := by
  induction l with
  | nil => simp
  | cons a t ih =>
    have hnd' := List.nodup_cons.mp hnd
    have hqa := hq a (List.mem_cons_self _ _)
    have hih := ih hnd'.2 (fun j hj => hq j (List.mem_cons_of_mem _ hj))
    rw [List.filter_cons, List.filter_cons]
    by_cases hac : a = c
    · subst hac
      have hct : a ∉ t := hnd'.1
      have ht : t.filter q = t.filter p := by
        apply List.filter_congr
        intro j hj
        have hja : (j == a) = false := by
          simp only [beq_eq_false_iff_ne, ne_eq]
          intro hje
          exact hct (hje ▸ hj)
        rw [hq j (List.mem_cons_of_mem _ hj), hja]
        simp
      have hqa' : q a = false := by rw [hqa]; simp
      by_cases hpa : p a = true
      · rw [if_neg (by rw [hqa']; exact Bool.false_ne_true), if_pos hpa, ht,
          if_pos ⟨List.mem_cons_self _ _, hpa⟩]
        simp
      · have hpa' : p a = false := by
          cases h : p a
          · rfl
          · exact absurd h hpa
        rw [if_neg (by rw [hqa']; exact Bool.false_ne_true),
          if_neg (by rw [hpa']; exact Bool.false_ne_true), ht,
          if_neg (fun h => hpa h.2)]
        omega
    · have hqa' : q a = p a := by
        rw [hqa]
        have hbc : (a == c) = false := by simp [hac]
        rw [hbc]
        simp
      have hmem : (c ∈ t ∧ p c = true) → (c ∈ a :: t ∧ p c = true) :=
        fun h => ⟨List.mem_cons_of_mem _ h.1, h.2⟩
      have hmem' : (c ∈ a :: t ∧ p c = true) → (c ∈ t ∧ p c = true) := by
        rintro ⟨hm, hp⟩
        rcases List.mem_cons.mp hm with he | hm'
        · exact absurd he.symm hac
        · exact ⟨hm', hp⟩
      by_cases hpa : p a = true
      · rw [hqa', if_pos hpa, if_pos hpa]
        simp only [List.length_cons]
        rw [hih]
        by_cases hcnd : c ∈ t ∧ p c = true
        · have hpos : 1 ≤ (t.filter p).length :=
            mem_length_pos (List.mem_filter.mpr ⟨hcnd.1, hcnd.2⟩)
          rw [if_pos hcnd, if_pos (hmem hcnd)]
          omega
        · rw [if_neg hcnd, if_neg (fun h => hcnd (hmem' h))]
          omega
      · rw [hqa', if_neg hpa, if_neg hpa, hih]
        by_cases hcnd : c ∈ t ∧ p c = true
        · rw [if_pos hcnd, if_pos (hmem hcnd)]
        · rw [if_neg hcnd, if_neg (fun h => hcnd (hmem' h))]

/-- Appending the popped table to the result removes exactly its
contribution from every remaining-source count. -/
theorem remaining_after_append (tables : List TableSpec) (result : List Nat)
    (current x : Nat) :
    remainingSources tables (result ++ [current]) x =
      remainingSources tables result x -
        (if current < tables.length ∧
            ((depsOf tables current).contains x && !(result.contains current)) = true
         then 1 else 0) := by
  unfold remainingSources
  rw [length_filter_minus current
    (fun j => (depsOf tables j).contains x && !(result.contains j))
    (fun j => (depsOf tables j).contains x && !((result ++ [current]).contains j))
    (List.nodup_range _)]
  · simp only [List.mem_range]
  · intro j _
    rw [contains_append_singleton]
    cases hc1 : (depsOf tables j).contains x <;>
      cases hc2 : result.contains j <;> cases hc3 : (j == current) <;> simp

/-- One iteration of the Kahn loop preserves the invariant. -/
theorem kahnInv_step (tables : List TableSpec) (inDeg : List Int)
    (current : Nat) (rest result : List Nat)
    (inv : KahnInv tables inDeg (current :: rest) result) :
    KahnInv tables (processDeps (depsOf tables current) inDeg rest).1
      (processDeps (depsOf tables current) inDeg rest).2 (result ++ [current]) := by
  have hcur_lt : current < tables.length := inv.queueLt current (List.mem_cons_self _ _)
  have hds_nd : (depsOf tables current).Nodup := depsOf_nodup tables current
  have hds_lt : ∀ d ∈ depsOf tables current, d < inDeg.length := by
    intro d hd
    rw [inv.len]
    exact depsOf_lt tables current d hd
  have hInDeg := processDeps_inDeg (depsOf tables current) inDeg rest hds_nd hds_lt
  have hQueue := processDeps_queue (depsOf tables current) inDeg rest hds_nd hds_lt
  have hcur_not_result : current ∉ result := by
    intro hmem
    exact (List.disjoint_of_nodup_append inv.nodup) hmem (List.mem_cons_self _ _)
  have hcontains_current : result.contains current = false := by
    rw [← Bool.not_eq_true]
    intro hc
    exact hcur_not_result ((list_contains_iff _ _).mp hc)
  have hnewly : ∀ y ∈ (depsOf tables current).filter
      (fun d => decide (intGet inDeg d = 1)),
      y ∈ depsOf tables current ∧ intGet inDeg y = 1 := by
    intro y hy
    have := List.mem_filter.mp hy
    exact ⟨this.1, of_decide_eq_true this.2⟩
  constructor
  · rw [processDeps_length]
    exact inv.len
  · intro x hx
    rw [hQueue] at hx
    rcases List.mem_append.mp hx with hx | hx
    · exact inv.queueLt x (List.mem_cons_of_mem _ hx)
    · exact depsOf_lt tables current x (hnewly x hx).1
  · intro x hx
    rcases List.mem_append.mp hx with hx | hx
    · exact inv.resultLt x hx
    · rw [List.mem_singleton] at hx
      subst hx
      exact hcur_lt
  · intro x hxlt
    have hge := inv.degGe x hxlt
    rw [hInDeg x, remaining_after_append]
    by_cases hmem : x ∈ depsOf tables current
    · have hcont : (depsOf tables current).contains x = true := (list_contains_iff _ _).mpr hmem
      have hcond : current < tables.length ∧
          ((depsOf tables current).contains x && !(result.contains current)) = true :=
        ⟨hcur_lt, by rw [hcont, hcontains_current]; rfl⟩
      rw [if_pos hcond, if_pos hmem]
      have hrem1 : 1 ≤ remainingSources tables result x := by
        apply mem_length_pos
        apply List.mem_filter.mpr
        exact ⟨List.mem_range.mpr hcur_lt, by rw [hcont, hcontains_current]; rfl⟩
      omega
    · have hcont : (depsOf tables current).contains x = false := by
        rw [← Bool.not_eq_true]
        intro hc
        exact hmem ((list_contains_iff _ _).mp hc)
      have hcond : ¬ (current < tables.length ∧
          ((depsOf tables current).contains x && !(result.contains current)) = true) := by
        rintro ⟨_, hc⟩
        rw [hcont] at hc
        simp at hc
      rw [if_neg hcond, if_neg hmem]
      omega
  · intro x hx
    rw [hQueue] at hx
    have hle : x ∈ result ++ current :: rest → intGet inDeg x ≤ 0 := inv.degLe x
    rcases List.mem_append.mp hx with hx1 | hx1
    · rcases List.mem_append.mp hx1 with hx2 | hx2
      · have := hle (List.mem_append_left _ hx2)
        rw [hInDeg x]
        by_cases hmem : x ∈ depsOf tables current
        · rw [if_pos hmem]; omega
        · rw [if_neg hmem]; omega
      · rw [List.mem_singleton] at hx2
        have hmemr : x ∈ result ++ current :: rest := by
          rw [hx2]
          exact List.mem_append_right _ (List.mem_cons_self _ _)
        have := hle hmemr
        rw [hInDeg x]
        by_cases hmem : x ∈ depsOf tables current
        · rw [if_pos hmem]; omega
        · rw [if_neg hmem]; omega
    · rcases List.mem_append.mp hx1 with hx2 | hx2
      · have := hle (List.mem_append_right _ (List.mem_cons_of_mem _ hx2))
        rw [hInDeg x]
        by_cases hmem : x ∈ depsOf tables current
        · rw [if_pos hmem]; omega
        · rw [if_neg hmem]; omega
      · obtain ⟨hmem, hone⟩ := hnewly x hx2
        rw [hInDeg x, if_pos hmem]
        omega
  · rw [hQueue, ← List.append_assoc]
    have base : ((result ++ [current]) ++ rest).Nodup := by
      rw [List.append_assoc, List.singleton_append]
      exact inv.nodup
    have hnewnd : ((depsOf tables current).filter
        (fun d => decide (intGet inDeg d = 1))).Nodup := hds_nd.filter _
    apply base.append hnewnd
    intro y hy1 hy2
    obtain ⟨_, hone⟩ := hnewly y hy2
    have hy3 : y ∈ result ++ current :: rest := by
      rw [List.append_assoc, List.singleton_append] at hy1
      exact hy1
    have := inv.degLe y hy3
    omega
  · intro x hself
    have hold := inv.noSelf x hself
    intro hx
    rw [hQueue] at hx
    rcases List.mem_append.mp hx with hx1 | hx1
    · rcases List.mem_append.mp hx1 with hx2 | hx2
      · exact hold (List.mem_append_left _ hx2)
      · rw [List.mem_singleton] at hx2
        subst hx2
        exact hold (List.mem_append_right _ (List.mem_cons_self _ _))
    · rcases List.mem_append.mp hx1 with hx2 | hx2
      · exact hold (List.mem_append_right _ (List.mem_cons_of_mem _ hx2))
      · obtain ⟨hmem, hone⟩ := hnewly x hx2
        have hxlt : x < tables.length := depsOf_lt tables current x hmem
        have hxnr : x ∉ result := fun hr => hold (List.mem_append_left _ hr)
        have hxnc : x ≠ current := by
          intro he
          exact hold (he ▸ List.mem_append_right _ (List.mem_cons_self _ _))
        have hcurmem : current ∈ (List.range tables.length).filter
            (fun j => (depsOf tables j).contains x && !(result.contains j)) := by
          apply List.mem_filter.mpr
          refine ⟨List.mem_range.mpr hcur_lt, ?_⟩
          rw [(list_contains_iff _ _).mpr hmem, hcontains_current]
          rfl
        have hxmem : x ∈ (List.range tables.length).filter
            (fun j => (depsOf tables j).contains x && !(result.contains j)) := by
          apply List.mem_filter.mpr
          refine ⟨List.mem_range.mpr hxlt, ?_⟩
          have hxcont : result.contains x = false := by
            rw [← Bool.not_eq_true]
            intro hc
            exact hxnr ((list_contains_iff _ _).mp hc)
          rw [hself, hxcont]
          rfl
        have h2 : 2 ≤ remainingSources tables result x :=
          two_mem_length_le hxmem hcurmem hxnc
        have := inv.degGe x hxlt
        omega

/-- Any run of the Kahn loop from an invariant state yields a
duplicate-free result of valid indices that contains no self-referencing
table. -/
theorem kahnLoop_inv (tables : List TableSpec) :
    ∀ (fuel : Nat) (inDeg : List Int) (queue result : List Nat),
    KahnInv tables inDeg queue result →
    (∀ x, (depsOf tables x).contains x →
      x ∉ kahnLoop fuel (depsOf tables) inDeg queue result) ∧
    (kahnLoop fuel (depsOf tables) inDeg queue result).Nodup ∧
    (∀ y ∈ kahnLoop fuel (depsOf tables) inDeg queue result, y < tables.length) := by
  intro fuel
  induction fuel with
  | zero =>
    intro inDeg queue result inv
    have hred : kahnLoop 0 (depsOf tables) inDeg queue result = result := by
      cases queue <;> rfl
    rw [hred]
    exact ⟨fun x hx hmem => inv.noSelf x hx (List.mem_append_left _ hmem),
      List.Nodup.of_append_left inv.nodup, inv.resultLt⟩
  | succ fuel ih =>
    intro inDeg queue result inv
    cases queue with
    | nil =>
      have hred : kahnLoop (fuel + 1) (depsOf tables) inDeg [] result = result := rfl
      rw [hred]
      exact ⟨fun x hx hmem => inv.noSelf x hx (List.mem_append_left _ hmem),
        List.Nodup.of_append_left inv.nodup, inv.resultLt⟩
    | cons current rest =>
      have hstep := kahnInv_step tables inDeg current rest result inv
      rcases hp : processDeps (depsOf tables current) inDeg rest with ⟨inDeg2, queue2⟩
      rw [hp] at hstep
      have hunfold : kahnLoop (fuel + 1) (depsOf tables) inDeg (current :: rest) result =
          kahnLoop fuel (depsOf tables) inDeg2 queue2 (result ++ [current]) := by
        simp [kahnLoop, hp]
      rw [hunfold]
      exact ih inDeg2 queue2 (result ++ [current]) hstep

/-- The initial state of `topologicalSortTables` satisfies the loop
invariant. -/
theorem kahnInv_init (tables : List TableSpec) :
    KahnInv tables ((List.range tables.length).map (inDegInit tables))
      ((List.range tables.length).filter (fun i => decide (inDegInit tables i = 0))) [] := by
  have hget : ∀ x, x < tables.length →
      intGet ((List.range tables.length).map (inDegInit tables)) x = inDegInit tables x := by
    intro x hx
    unfold intGet
    rw [List.get?_map, List.get?_range hx]
    rfl
  constructor
  · rw [List.length_map, List.length_range]
  · intro x hx
    exact List.mem_range.mp (List.mem_filter.mp hx).1
  · intro x hx
    cases hx
  · intro x hx
    rw [hget x hx]
    unfold remainingSources inDegInit
    have hsub : ((List.range tables.length).filter
        (fun j => (depsOf tables j).contains x && !(([] : List Nat).contains j))).length ≤
        (resolvedRefs tables x).length := by
      apply List.Subperm.length_le
      apply List.subperm_of_subset
      · exact List.Nodup.filter _ (List.nodup_range _)
      · intro y hy
        have hmf := List.mem_filter.mp hy
        have hcy : (depsOf tables y).contains x = true := by simpa using hmf.2
        exact ((mem_depsOf tables y x).mp ((list_contains_iff _ _).mp hcy)).2
    exact_mod_cast hsub
  · intro x hx
    rw [List.nil_append] at hx
    have hmf := List.mem_filter.mp hx
    have hx_lt : x < tables.length := List.mem_range.mp hmf.1
    rw [hget x hx_lt, of_decide_eq_true hmf.2]
  · rw [List.nil_append]
    exact List.Nodup.filter _ (List.nodup_range _)
  · intro x hself hx
    rw [List.nil_append] at hx
    have hmf := List.mem_filter.mp hx
    have hzero : inDegInit tables x = 0 := of_decide_eq_true hmf.2
    have hmem := (mem_depsOf tables x x).mp ((list_contains_iff _ _).mp hself)
    unfold inDegInit at hzero
    have hlen : (resolvedRefs tables x).length = 0 := by exact_mod_cast hzero
    rw [List.length_eq_zero] at hlen
    rw [hlen] at hmem
    cases hmem.2

/-- With duplicate-free table names, a table's name resolves to its own
index. -/
theorem nameToIdx_of_nodup (tables : List TableSpec)
    (hnames : (tables.map TableSpec.name).Nodup) (i : Nat) (t : TableSpec)
    (hget : tables.get? i = some t) : nameToIdx tables t.name = some i := by
  unfold nameToIdx
  have hi_lt : i < tables.length := (List.get?_eq_some.mp hget).1
  have hfil : (List.range tables.length).filter
      (fun j => decide (((tables.get? j).map TableSpec.name) = some t.name)) = [i] := by
    apply nodup_eq_singleton
    · exact List.Nodup.filter _ (List.nodup_range _)
    · apply List.mem_filter.mpr
      refine ⟨List.mem_range.mpr hi_lt, ?_⟩
      rw [hget]
      simp
    · intro j hj
      have hmf := List.mem_filter.mp hj
      have hj_lt : j < tables.length := List.mem_range.mp hmf.1
      have heq : ((tables.get? j).map TableSpec.name) = some t.name := of_decide_eq_true hmf.2
      have h1 : (tables.map TableSpec.name).get? j = some t.name := by
        rw [List.get?_map, heq]
      have h2 : (tables.map TableSpec.name).get? i = some t.name := by
        rw [List.get?_map, hget]
        rfl
      exact List.get?_inj (by rw [List.length_map]; exact hj_lt) hnames (h1.trans h2.symm)
  rw [hfil]
  rfl

/-- A duplicate-free list of indices below `n` that misses one index below
`n` is shorter than `n`. -/
theorem missing_index_short {l : List Nat} {n x0 : Nat}
    (hnd : l.Nodup) (hlt : ∀ y ∈ l, y < n) (hx : x0 ∉ l) (hx0 : x0 < n) :
    l.length < n := by
  have hsub : l ⊆ (List.range n).erase x0 := by
    intro y hy
    have hyne : y ≠ x0 := fun he => hx (he ▸ hy)
    exact (List.mem_erase_of_ne hyne).mpr (List.mem_range.mpr (hlt y hy))
  have hle := List.Subperm.length_le (List.subperm_of_subset hnd hsub)
  rw [List.length_erase_of_mem (List.mem_range.mpr hx0), List.length_range] at hle
  omega

/-- C1 amended: self-edges count toward a table's in-degree and are only
removed when the table itself is popped, so for every input with distinct
table names that contains a self-referencing table, `topological_sort_tables`
raises the circular-dependency error — even when no other cycle exists. -/
theorem c1_self_reference_raises (tables : List TableSpec)
    (hnames : (tables.map TableSpec.name).Nodup)
    (hself : ∃ t ∈ tables, t.name ∈ t.refs) :
    topologicalSortTables tables =
      .error "Circular dependency detected in table foreign keys" := by
  obtain ⟨t, htmem, href⟩ := hself
  obtain ⟨i0, hget⟩ := List.mem_iff_get?.mp htmem
  have hi0_lt : i0 < tables.length := (List.get?_eq_some.mp hget).1
  have hname : nameToIdx tables t.name = some i0 := nameToIdx_of_nodup tables hnames i0 t hget
  have hres : i0 ∈ resolvedRefs tables i0 := by
    unfold resolvedRefs
    rw [hget]
    exact List.mem_filterMap.mpr ⟨t.name, href, hname⟩
  have hcont : (depsOf tables i0).contains i0 = true :=
    (list_contains_iff _ _).mpr ((mem_depsOf tables i0 i0).mpr ⟨hi0_lt, hres⟩)
  have hloop := kahnLoop_inv tables
    (kahnMeasure ((List.range tables.length).map (inDegInit tables))
      ((List.range tables.length).filter (fun i => decide (inDegInit tables i = 0))))
    ((List.range tables.length).map (inDegInit tables))
    ((List.range tables.length).filter (fun i => decide (inDegInit tables i = 0)))
    [] (kahnInv_init tables)
  have hkey := missing_index_short hloop.2.1 hloop.2.2 (hloop.1 i0 hcont) hi0_lt
  simp only [topologicalSortTables]
  rw [if_neg (by omega)]

/-- C1 witness: the amended theorem applied to a concrete input holding one
self-referencing table. -/
theorem c1_self_reference_raises_witness :
    ((([⟨"blog", ["blog"]⟩] : List TableSpec).map TableSpec.name).Nodup ∧
      ∃ t ∈ ([⟨"blog", ["blog"]⟩] : List TableSpec), t.name ∈ t.refs) ∧
    topologicalSortTables [⟨"blog", ["blog"]⟩] =
      .error "Circular dependency detected in table foreign keys" :=
  ⟨⟨by decide, ⟨⟨"blog", ["blog"]⟩, by decide, by decide⟩⟩,
    c1_self_reference_raises [⟨"blog", ["blog"]⟩] (by decide)
      ⟨⟨"blog", ["blog"]⟩, by decide, by decide⟩⟩

/-! Adequacy of the fuel bound: `kahnMeasure` strictly decreases at each
iteration, so the fuel passed by `topologicalSortTables` never runs out and
the fuelled loop agrees with the unbounded while-loop of the source. -/

theorem sum_toNat_set (inDeg : List Int) :
    ∀ (d : Nat) (v : Int), d < inDeg.length →
    (((inDeg.set d v).map Int.toNat).sum + (intGet inDeg d).toNat =
      (inDeg.map Int.toNat).sum + v.toNat) := by
  induction inDeg with
  | nil =>
    intro d v hd
    cases hd
  | cons a t ih =>
    intro d v hd
    cases d with
    | zero =>
      simp [intGet, List.set]
      omega
    | succ d' =>
      have hd' : d' < t.length := by simpa using hd
      have := ih d' v hd'
      simp only [List.set, List.map_cons, List.sum_cons]
      have hg : intGet (a :: t) (d' + 1) = intGet t d' := by
        unfold intGet
        rfl
      rw [hg]
      omega

theorem processDeps_measure (ds : List Nat) :
    ∀ (inDeg : List Int) (queue : List Nat), ds.Nodup →
    (∀ d ∈ ds, d < inDeg.length) →
    kahnMeasure (processDeps ds inDeg queue).1 (processDeps ds inDeg queue).2 ≤
      kahnMeasure inDeg queue := by
  induction ds with
  | nil =>
    intro inDeg queue _ _
    simp [processDeps]
  | cons d rest ih =>
    intro inDeg queue hnd hlt
    have hnd' := List.nodup_cons.mp hnd
    have hdlt : d < inDeg.length := hlt d (List.mem_cons_self _ _)
    simp only [processDeps]
    have hrec := ih (inDeg.set d (intGet inDeg d - 1))
      (if intGet inDeg d - 1 = 0 then queue ++ [d] else queue) hnd'.2
      (fun e he => by rw [List.length_set]; exact hlt e (List.mem_cons_of_mem _ he))
    refine le_trans hrec ?_
    unfold kahnMeasure
    have hsum := sum_toNat_set inDeg d (intGet inDeg d - 1) hdlt
    by_cases hz : intGet inDeg d - 1 = 0
    · have hone : intGet inDeg d = 1 := by omega
      rw [if_pos hz, List.length_append]
      simp only [List.length_singleton]
      omega
    · rw [if_neg hz]
      omega

theorem kahnLoop_fuel_irrelevant (deps : Nat → List Nat)
    (hnd : ∀ j, (deps j).Nodup) :
    ∀ (fuel1 fuel2 : Nat) (inDeg : List Int) (queue result : List Nat),
    (∀ j, ∀ x ∈ deps j, x < inDeg.length) →
    kahnMeasure inDeg queue ≤ fuel1 → kahnMeasure inDeg queue ≤ fuel2 →
    kahnLoop fuel1 deps inDeg queue result = kahnLoop fuel2 deps inDeg queue result := by
  intro fuel1
  induction fuel1 with
  | zero =>
    intro fuel2 inDeg queue result _ h1 _
    cases queue with
    | nil => cases fuel2 <;> rfl
    | cons c rest =>
      exact absurd h1 (by unfold kahnMeasure; simp only [List.length_cons]; omega)
  | succ fuel1 ih =>
    intro fuel2 inDeg queue result hdep h1 h2
    cases queue with
    | nil => cases fuel2 <;> rfl
    | cons current rest =>
      have hq1 : 1 ≤ kahnMeasure inDeg (current :: rest) := by
        unfold kahnMeasure
        simp only [List.length_cons]
        omega
      match fuel2 with
      | 0 => exact absurd h2 (by omega)
      | fuel2 + 1 =>
        rcases hp : processDeps (deps current) inDeg rest with ⟨inDeg2, queue2⟩
        have hm := processDeps_measure (deps current) inDeg rest (hnd current)
          (fun d hd => hdep current d hd)
        rw [hp] at hm
        have hmeas : kahnMeasure inDeg2 queue2 ≤ kahnMeasure inDeg rest := hm
        have hrest : kahnMeasure inDeg rest + 1 = kahnMeasure inDeg (current :: rest) := by
          unfold kahnMeasure
          simp [List.length_cons]
          omega
        have hlen2 : inDeg2.length = inDeg.length := by
          have := processDeps_length (deps current) inDeg rest
          rw [hp] at this
          exact this
        have hstep1 : kahnLoop (fuel1 + 1) deps inDeg (current :: rest) result =
            kahnLoop fuel1 deps inDeg2 queue2 (result ++ [current]) := by
          simp [kahnLoop, hp]
        have hstep2 : kahnLoop (fuel2 + 1) deps inDeg (current :: rest) result =
            kahnLoop fuel2 deps inDeg2 queue2 (result ++ [current]) := by
          simp [kahnLoop, hp]
        rw [hstep1, hstep2]
        exact ih fuel2 inDeg2 queue2 (result ++ [current])
          (fun j x hx => hlen2 ▸ hdep j x hx) (by omega) (by omega)

/-- The fuel chosen by `topologicalSortTables` is adequate: giving the loop
any larger fuel changes nothing, so the model agrees with the unbounded
source loop. -/
theorem topologicalSort_fuel_adequate (tables : List TableSpec) (extra : Nat) :
    kahnLoop (kahnMeasure ((List.range tables.length).map (inDegInit tables))
        ((List.range tables.length).filter (fun i => decide (inDegInit tables i = 0))) + extra)
      (depsOf tables)
      ((List.range tables.length).map (inDegInit tables))
      ((List.range tables.length).filter (fun i => decide (inDegInit tables i = 0))) [] =
    kahnLoop (kahnMeasure ((List.range tables.length).map (inDegInit tables))
        ((List.range tables.length).filter (fun i => decide (inDegInit tables i = 0))))
      (depsOf tables)
      ((List.range tables.length).map (inDegInit tables))
      ((List.range tables.length).filter (fun i => decide (inDegInit tables i = 0))) [] := by
  apply kahnLoop_fuel_irrelevant (depsOf tables) (depsOf_nodup tables)
  · intro j x hx
    rw [List.length_map, List.length_range]
    exact depsOf_lt tables j x hx
  · omega
  · omega

end Embar
